import Mathlib

/-!
Verification development for the ccbench cache-coherence microbenchmark.

The definitions below are shallow embeddings of the C sources:
`src/unnamed/part_004` (the ccbench.c variant, namespace `P4` for its
jagged-array parser), `src/src/ccbench.c` (namespace `CC` for its
jagged-array parser), and `src/src/barrier.c` / `src/unnamed/part_000`
(barrier bank).  Machine integers are modelled as `Nat`/`Int`; the values
handled by the claims (test ids, core ids, win counters bounded by the
repetition count) stay far below the 32/64-bit bounds of the C types, so
no wrap-around is modelled.  Loops whose C termination argument is "the
pointer advances by at least one character per iteration" are embedded
with an explicit fuel parameter set to `length + 1` at the call site,
which the corresponding sufficiency lemmas show is never exhausted on the
inputs of interest.
-/

namespace CCBench

/-- C `isdigit` restricted to ASCII, as both parsers use it on the bytes of
the option string: true exactly for `'0'..'9'` (codes 48..57). -/
def isDigitC (c : Char) : Bool := 48 ≤ c.toNat && c.toNat ≤ 57

/-- The whitespace characters that C `strtol`/`strtoll` skip before the
number. -/
def isSpaceC (c : Char) : Bool :=
  c == ' ' || c == '\t' || c == '\n' || c == '\r' || c == '\x0b' || c == '\x0c'

/-- Numeric value of one ASCII digit character. -/
def digitVal (c : Char) : Nat := c.toNat - 48

/-- Consume the maximal leading run of decimal digits, accumulating their
base-10 value; returns the value and the unconsumed suffix.  This is the
digit loop inside `strtol`/`strtoll`. -/
def parseDigits : List Char → Nat → Nat × List Char
  | [], acc => (acc, [])
  | c :: cs, acc =>
    if isDigitC c then parseDigits cs (acc * 10 + digitVal c) else (acc, c :: cs)

/-- Shallow model of C `strtol`/`strtoll` in base 10 (identical on the LP64
hosts this code targets, and no input of interest overflows): skip
whitespace, read an optional sign and a nonempty digit run.  `none` means no
conversion was performed, which C reports via `endptr == nptr`. -/
def strtolC (l : List Char) : Option (Int × List Char) :=
  match l.dropWhile isSpaceC with
  | [] => none
  | c :: cs =>
    if c = '-' then
      match cs with
      | [] => none
      | c2 :: cs2 =>
        if isDigitC c2 then
          some (-((parseDigits (c2 :: cs2) 0).1 : Int), (parseDigits (c2 :: cs2) 0).2)
        else none
    else if c = '+' then
      match cs with
      | [] => none
      | c2 :: cs2 =>
        if isDigitC c2 then
          some (((parseDigits (c2 :: cs2) 0).1 : Int), (parseDigits (c2 :: cs2) 0).2)
        else none
    else if isDigitC c then
      some (((parseDigits (c :: cs) 0).1 : Int), (parseDigits (c :: cs) 0).2)
    else none

/-- Ascending branch of the `for (v = a;; v += step)` range loop of
`parse_jagged_array` (part_004): push `v`, stop when `v = b`, else step by
`+1`; `n` is the remaining number of steps. -/
def rangeAsc (a : Int) : Nat → List Int
  | 0 => [a]
  | n + 1 => a :: rangeAsc (a + 1) n

/-- Descending branch of the same loop with `step = -1`. -/
def rangeDesc (a : Int) : Nat → List Int
  | 0 => [a]
  | n + 1 => a :: rangeDesc (a - 1) n

/-- The expansion of an `a ... b` range item in the part_004
`parse_jagged_array`: `step = (b >= a) ? 1 : -1`, values pushed from `a`
inclusively to `b`. -/
def expandRange (a b : Int) : List Int :=
  if b ≥ a then rangeAsc a (b - a).toNat else rangeDesc a (a - b).toNat

/-- True when the next three characters are the `...` ellipsis
(`p[0]=='.' && p[1]=='.' && p[2]=='.'`). -/
def isEllipsis (l : List Char) : Bool := decide (l.take 3 = ['.', '.', '.'])

namespace P4

/-- The item-scanning skip of the part_004 row loop:
`while (*p && !isdigit(*p) && *p != '-' && *p != ']') p++;`.
The same predicate also drives the trailing advance
`while (*p && *p != ']' && !(isdigit(*p) || *p=='-')) p++;`. -/
def skipToItem (l : List Char) : List Char :=
  l.dropWhile (fun c => !(isDigitC c || c == '-' || c == ']'))

/-- `while (*p == ' ' || *p == '\t' || *p == ',') p++;` (the separator skip
around the ellipsis of part_004's parser). -/
def skipSpComma (l : List Char) : List Char :=
  l.dropWhile (fun c => c == ' ' || c == '\t' || c == ',')

/-- One row of the part_004 `parse_jagged_array`: the loop
`while (*p && *p != ']')` that repeatedly skips to the next item, parses an
integer, optionally expands an `a ... b` range, and appends to the row.
Returns the parsed items and the remainder, which the caller requires to
start with `]`.  Because the trailing advance of each iteration uses the
same predicate as the loop-head skip and `dropWhile` is idempotent, the
recursive call resumes directly after the consumed number.  `fuel`
decreases by one per iteration; each iteration consumes at least one
character, so `l.length + 1` fuel always suffices. -/
def parseRowF : Nat → List Char → List Int → Option (List Int × List Char)
  | 0, _, _ => none
  | fuel + 1, l, row =>
    match skipToItem l with
    | [] => some (row, [])
    | c :: t =>
      if c = ']' then some (row, c :: t)
      else
        match strtolC (c :: t) with
        | none => none
        | some (a, p) =>
          if isEllipsis (skipSpComma p) then
            match strtolC (skipSpComma ((skipSpComma p).drop 3)) with
            | none => none
            | some (b, p4) => parseRowF fuel p4 (row ++ expandRange a b)
          else parseRowF fuel p (row ++ [a])

/-- The outer row loop of the part_004 `parse_jagged_array`:
`while (*p) { skip to '['; enter the row; require ']'; append the row }`,
failing when zero rows were parsed. -/
def parseLoopF : Nat → List Char → List (List Int) → Option (List (List Int))
  | 0, _, _ => none
  | fuel + 1, l, acc =>
    match l.dropWhile (fun c => !(c == '[')) with
    | [] => if acc.isEmpty then none else some acc
    | _ :: rest =>
      match parseRowF (rest.length + 1) rest [] with
      | none => none
      | some (row, rem) =>
        match rem with
        | ']' :: rem2 => parseLoopF fuel rem2 (acc ++ [row])
        | _ => none

/-- `parse_jagged_array` of `src/unnamed/part_004` (lines 2975-3072), on the
character list of the option string; `some rows` models return value 0 with
the jagged rows written to `*out`/`*rows`/`*cols`, `none` models -1. -/
def parse_jagged_array (s : List Char) : Option (List (List Int)) :=
  parseLoopF (s.length + 1) s []

end P4

namespace CC

/-- The token-counting scan of the src/src/ccbench.c `parse_jagged_array`:
from the character after `[`, count maximal runs of digits-and-hyphens up
to the closing `]`; `none` when the row is never closed.  Returns the count
and the remainder after the `]` (the C code resumes at `q + 1`). -/
def countTokensF : Nat → List Char → Nat → Option (Nat × List Char)
  | 0, _, _ => none
  | _, [], _ => none
  | fuel + 1, c :: cs, n =>
    if c = ']' then some (n, cs)
    else if isDigitC c || c == '-' then
      countTokensF fuel (cs.dropWhile (fun d => isDigitC d || d == '-')) (n + 1)
    else countTokensF fuel cs n

/-- The value pass of the src/src/ccbench.c parser:
`for (j = 0; j < count; j++) { skip to digit or '-'; strtol }`.  Mirrors
that this variant does not check `endptr`: a failed conversion stores 0 and
does not advance. -/
def parseValsF : Nat → List Char → List Int
  | 0, _ => []
  | j + 1, l =>
    match strtolC (l.dropWhile (fun c => !(isDigitC c || c == '-'))) with
    | some (v, r) => v :: parseValsF j r
    | none => 0 :: parseValsF j (l.dropWhile (fun c => !(isDigitC c || c == '-')))

/-- The outer loop of the src/src/ccbench.c `parse_jagged_array`: scan for
`[`, count the row's tokens, parse that many values, resume after the `]`;
fail when zero rows were parsed. -/
def parseLoopF : Nat → List Char → List (List Int) → Option (List (List Int))
  | 0, _, _ => none
  | _, [], acc => if acc.isEmpty then none else some acc
  | fuel + 1, c :: cs, acc =>
    if c = '[' then
      match countTokensF (cs.length + 1) cs 0 with
      | none => none
      | some (n, rest) => parseLoopF fuel rest (acc ++ [parseValsF n cs])
    else parseLoopF fuel cs acc

/-- `parse_jagged_array` of `src/src/ccbench.c` (lines 2574-2642). -/
def parse_jagged_array (s : List Char) : Option (List (List Int)) :=
  parseLoopF (s.length + 1) s []

end CC

end CCBench

namespace CCBench

/-- One decimal digit character; the serializer writes canonical numerals
with these. -/
def digitChar (d : Nat) : Char :=
  match d with
  | 0 => '0' | 1 => '1' | 2 => '2' | 3 => '3' | 4 => '4'
  | 5 => '5' | 6 => '6' | 7 => '7' | 8 => '8' | _ => '9'

/-- Decimal digits of `n`, most significant first, accumulated onto `acc`;
`fuel` bounds the division chain and `n + 1` always suffices. -/
def natCharsF : Nat → Nat → List Char → List Char
  | 0, _, acc => acc
  | fuel + 1, n, acc =>
    if n < 10 then digitChar n :: acc
    else natCharsF fuel (n / 10) (digitChar (n % 10) :: acc)

/-- Canonical decimal numeral of a natural number. -/
def natChars (n : Nat) : List Char := natCharsF (n + 1) n []

/-- Canonical numeral of an integer item of the jagged-array grammar. -/
def intChars (i : Int) : List Char :=
  if i < 0 then '-' :: natChars (-i).toNat else natChars i.toNat

/-- Body of one serialized row: items separated by commas, per the grammar
`row := '[' item (',' item)* ']'` of spec §6. -/
def serRowBody : List Int → List Char
  | [] => []
  | [i] => intChars i
  | i :: rest => intChars i ++ ',' :: serRowBody rest

/-- One serialized row including its brackets. -/
def serRow (row : List Int) : List Char := '[' :: (serRowBody row ++ [']'])

/-- Comma-separated serialized rows, per the grammar
`array := '[' row (',' row)* ']'`. -/
def serRowsBody : List (List Int) → List Char
  | [] => []
  | [r] => serRow r
  | r :: rest => serRow r ++ ',' :: serRowsBody rest

/-- Serialized multi-row array: the outer brackets around the rows. -/
def serMulti (rows : List (List Int)) : List Char :=
  '[' :: (serRowsBody rows ++ [']'])

/-- What remains of a serialized multi-row array right after a row's
closing bracket has been consumed: the separator and the following rows,
then the outer closing bracket. -/
def serRowsTail : List (List Int) → List Char
  | [] => [']']
  | rows => ',' :: (serRowsBody rows ++ [']'])

/-- Base-10 value of a digit run, folded left from `acc` exactly as the
digit loop of `strtolC` accumulates. -/
def digitsVal (l : List Char) (acc : Nat) : Nat :=
  l.foldl (fun x c => x * 10 + digitVal c) acc

/-- Winner-tracking state of part_004: `fw ρ = none` models
`first_winner_per_rep[ρ] == UINT32_MAX` (unclaimed); `wins r` models
`win_counts_per_rank[r]`.  Both C counters stay below `2^32` because every
claim needs an unclaimed repetition, so no wrap-around is modelled. -/
structure RaceState where
  fw : Nat → Option Nat
  wins : Nat → Nat

/-- `race_try_win(rep_idx)` (part_004 lines 113-128) executed by rank `id`
as one atomic step: guard `rep_idx >= test_reps`, then a single
compare-and-set of `first_winner_per_rep[rep_idx]` from UNCLAIMED to `id`,
and on CAS success one atomic increment of `win_counts_per_rank[id]`. -/
def race_try_win (nreps : Nat) (id rep : Nat) (s : RaceState) : RaceState :=
  if nreps ≤ rep then s
  else
    match s.fw rep with
    | some _ => s
    | none =>
      { fw := fun ρ => if ρ = rep then some id else s.fw ρ
        wins := fun r => if r = id then s.wins r + 1 else s.wins r }

/-- The all-unclaimed, zero-wins state main() sets up before spawning
workers (and that each repetition's seeder reset re-establishes for its
repetition before the B4 release). -/
def raceInit : RaceState := { fw := fun _ => none, wins := fun _ => 0 }

/-- A linearized trace of `race_try_win` calls `(rank, repetition)`: the
CAS and the win increment are atomic, so any concurrent execution is some
interleaving, i.e. some such list. -/
def runRace (nreps : Nat) (evs : List (Nat × Nat)) (s : RaceState) : RaceState :=
  evs.foldl (fun st e => race_try_win nreps e.1 e.2 st) s

/-- Number of repetitions whose `first_winner` cell is claimed. -/
def claimedCount (nreps : Nat) (s : RaceState) : Nat :=
  ∑ ρ ∈ Finset.range nreps, if (s.fw ρ).isSome then 1 else 0

/-- Sum of the per-rank win counters over the `test_cores` ranks. -/
def totalWins (T : Nat) (s : RaceState) : Nat := ∑ r ∈ Finset.range T, s.wins r

/-- Per-repetition seeder duty (seeder_main, part_004 lines 771-798, and
the identical in-band branch of run_benchmark): prime word 0 with
`rep & 1`, fence, reset `first_winner[rep]` to UNCLAIMED, fence, publish
`round_start[rep]`, fence, enter barrier 4. -/
inductive SeederAction where
  | primeLine (v : Nat)
  | fence
  | resetWinner (rep : Nat)
  | publishStart (rep : Nat)
  | releaseB4
deriving DecidableEq

/-- The seeder's action sequence for repetition `rep`. -/
def seederRound (rep : Nat) : List SeederAction :=
  [.primeLine (rep % 2), .fence, .resetWinner rep, .fence,
   .publishStart rep, .fence, .releaseB4]

/-- The three per-rank retry counters of part_004
(`cas_attempts_per_rank`, `cas_successes_per_rank`,
`cas_failures_per_rank`). -/
structure CukCounters where
  attempts : Nat
  successes : Nat
  failures : Nat
deriving DecidableEq

/-- In-flight state of one `cas_until_success` call: the persistent
counters plus the call-local backoff value, the pause amounts executed so
far, and the `race_try_win` invocations made. -/
structure CukRun where
  counters : CukCounters
  backoff : Nat
  pauses : List Nat
  claims : Nat
deriving DecidableEq

/-- The retry loop of `cas_until_success` (part_004 lines 2158-2219).  The
oracle lists, per attempt, whether the CAS finds the value the thread just
read (decided by concurrent interference); `none` models the loop never
exiting because no attempt succeeded.  Each iteration increments
`attempts`; on success it calls `race_try_win` and increments `successes`
and exits; on failure it increments `failures`, pauses `backoff`
iterations (a single `_mm_pause` when backoff is disabled), and then, if
`backoff < max_backoff`, doubles `backoff` clamping at `max_backoff`. -/
def cukLoop (backoffOn : Bool) (cap : Nat) : List Bool → CukRun → Option CukRun
  | [], _ => none
  | ok :: rest, s =>
    if ok then
      some { s with
        counters := { s.counters with attempts := s.counters.attempts + 1,
                                       successes := s.counters.successes + 1 }
        claims := s.claims + 1 }
    else
      cukLoop backoffOn cap rest
        { s with
          counters := { s.counters with attempts := s.counters.attempts + 1,
                                         failures := s.counters.failures + 1 }
          pauses := s.pauses ++ [if backoffOn then s.backoff else 1]
          backoff :=
            if backoffOn && decide (s.backoff < cap) then min (s.backoff * 2) cap
            else s.backoff }

/-- Result of one completed `cas_until_success` call. `latWrites` counts
the unconditional store of `t_end - round_start[reps]` into
`common_latency_cycles[ID * test_reps + reps]` performed after the loop. -/
structure CukResult where
  counters : CukCounters
  pauses : List Nat
  claims : Nat
  latWrites : Nat
deriving DecidableEq

/-- `cas_until_success` (part_004 lines 2158-2219): random-walk to the
target line (untimed), then the retry loop starting from `backoff = 1`,
then the common-start-latency store. -/
def cas_until_success (backoffOn : Bool) (cap : Nat) (oracle : List Bool)
    (c : CukCounters) : Option CukResult :=
  match cukLoop backoffOn cap oracle { counters := c, backoff := 1, pauses := [], claims := 0 } with
  | none => none
  | some s => some { counters := s.counters, pauses := s.pauses, claims := s.claims, latWrites := 1 }

/-- A sequence of completed `cas_until_success` calls by one rank (at most
one call per repetition of the round loop), threading the persistent
counters. -/
def cukCalls (backoffOn : Bool) (cap : Nat) : List (List Bool) → CukCounters → Option CukCounters
  | [], c => some c
  | o :: os, c =>
    match cas_until_success backoffOn cap o c with
    | none => none
    | some r => cukCalls backoffOn cap os r.counters

/-- `max_backoff` selection of `cas_until_success`: the per-rank `-A` entry
when `backoff_max_per_rank` was supplied, otherwise the global
`test_backoff_max` from `--backoff-max`. -/
def effectiveBackoffCap (globalMax : Nat) (perRank : Option (List Nat)) (id : Nat) : Nat :=
  match perRank with
  | some arr => arr.getD id 0
  | none => globalMax

/-- The `-A` clamp of main(): each per-rank entry below 1 becomes 1 (and
the `-M` handler applies the same clamp to the global value). -/
def clampBackoff (arr : List Nat) : List Nat := arr.map (fun v => max v 1)

/-- `cas_0_eventually` (part_004 lines 2222-2247): draw `cln`; when
`cln = 0` call `race_try_win` and then perform the timed CAS and exit;
otherwise CAS the off-target line and redraw.  The oracle pairs each drawn
`cln` with that iteration's CAS result; the returned pair is the claim
count and the final CAS's `r == o`. -/
def cas0LoopF : List (Nat × Bool) → Nat → Option (Nat × Bool)
  | [], _ => none
  | (cln, casOk) :: rest, claims =>
    if cln = 0 then some (claims + 1, casOk)
    else cas0LoopF rest claims

/-- `cas_0_eventually` started with zero claims. -/
def cas_0_eventually (oracle : List (Nat × Bool)) : Option (Nat × Bool) :=
  cas0LoopF oracle 0

/-- `fai` (part_004): draw `cln`; at `cln = 0` call `race_try_win`, perform
the timed FAI (which always succeeds) and `rec_success`, and exit. -/
def faiLoopF : List Nat → Nat → Option Nat
  | [], _ => none
  | cln :: rest, claims => if cln = 0 then some (claims + 1) else faiLoopF rest claims

/-- `fai` started with zero claims; returns the claim count. -/
def fai (draws : List Nat) : Option Nat := faiLoopF draws 0

/-- `swap` (part_004): same stride-hiding shape as `fai` with SWAP_U32 as
the (always succeeding) operation. -/
def swapLoopF : List Nat → Nat → Option Nat
  | [], _ => none
  | cln :: rest, claims => if cln = 0 then some (claims + 1) else swapLoopF rest claims

/-- `swap` started with zero claims. -/
def swap (draws : List Nat) : Option Nat := swapLoopF draws 0

/-- The inner `for (;;)` of `tas`: retry TAS_U8 until it returns something
other than 255; yields the number of failed attempts before success,
`none` when the oracle never succeeds. -/
def untilFirstSuccess : List Bool → Option Nat
  | [] => none
  | b :: bs => if b then some 0 else (untilFirstSuccess bs).map (fun n => n + 1)

/-- `tas` (part_004): draw `cln`; at `cln = 0` call `race_try_win` FIRST,
then time the retry-until-free inner loop and `rec_success`; off-target
draws redraw.  The oracle pairs each draw with the inner TAS results. -/
def tasLoopF : List (Nat × List Bool) → Nat → Option Nat
  | [], _ => none
  | (cln, inner) :: rest, claims =>
    if cln = 0 then
      match untilFirstSuccess inner with
      | some _ => some (claims + 1)
      | none => none
    else tasLoopF rest claims

/-- `tas` started with zero claims. -/
def tas (oracle : List (Nat × List Bool)) : Option Nat := tasLoopF oracle 0

/-- The `switch (test_fence)` of main() (part_004 lines 393-442): the pair
`(test_lfence, test_sfence)` it stores, under the encoding 0 = none,
1 = partial (lfence/sfence), 2 = full (mfence), 3 = double-write.  Every
level outside 1..9, in particular 0, takes the `default` arm. -/
def fence_modes (fence : Nat) : Nat × Nat :=
  match fence with
  | 1 => (1, 1) | 2 => (2, 2) | 3 => (1, 0) | 4 => (0, 1) | 5 => (2, 0)
  | 6 => (0, 2) | 7 => (2, 1) | 8 => (1, 2) | 9 => (0, 3) | _ => (0, 0)

/-- The fence-policy table of spec §6, transcribed from the spec's words
(the refinement side to compare `fence_modes` against): 0=(none,none),
1=(partial,partial), 2=(full,full), 3=(partial,none), 4=(none,partial),
5=(full,none), 6=(none,full), 7=(full,partial), 8=(partial,full),
9=(none,double-write). -/
def specFencePolicy (k : Nat) : Nat × Nat :=
  match k with
  | 0 => (0, 0) | 1 => (1, 1) | 2 => (2, 2) | 3 => (1, 0) | 4 => (0, 1)
  | 5 => (2, 0) | 6 => (0, 2) | 7 => (2, 1) | 8 => (1, 2) | 9 => (0, 3)
  | _ => (0, 0)

/-- One rank's `(core, role, group)` triple as built by main(). -/
structure RankEntry where
  core : Nat
  role : Nat
  group : Nat
deriving DecidableEq

/-- The flattening loop of main() (part_004 lines 462-521) restricted to
the core/role/group assignment: for each group `g` and position `j`,
`core_for_rank[idx] = test_cores_array[g][j]`, `role_for_rank[idx] = j`,
`group_for_rank[idx] = g`, with `idx` advancing in group-major order. -/
def rankMap (xss : List (List Nat)) : List RankEntry :=
  (xss.enum.map (fun gr => gr.2.enum.map (fun jc =>
    { core := jc.2, role := jc.1, group := gr.1 : RankEntry }))).flatten

/-- The per-group test-id assignment of main() (part_004 lines 482-521):
per-thread list when `-t` and `-x` are single rows of equal length, one
test per group by position when `-t` is a single row, the per-group first
entry when `-t` has as many rows as `-x`, and the `exit(EXIT_FAILURE)`
paths (`none`) otherwise. -/
def assignTests (defaultTest : Int) (tA : Option (List (List Int)))
    (xss : List (List Nat)) : Option (List Int) :=
  match tA with
  | none => some ((xss.map (fun row => row.map (fun _ => defaultTest))).flatten)
  | some t =>
    let groups := xss.enum.map (fun gr =>
      if t.length = 1 ∧ xss.length = 1 ∧ (t.getD 0 []).length = (xss.getD 0 []).length then
        some (gr.2.enum.map (fun jc => (t.getD 0 []).getD jc.1 0))
      else if t.length = 1 then
        if gr.1 < (t.getD 0 []).length then
          some (gr.2.map (fun _ => (t.getD 0 []).getD gr.1 0))
        else none
      else if t.length = xss.length then
        if 1 ≤ (t.getD gr.1 []).length then
          some (gr.2.map (fun _ => (t.getD gr.1 []).getD 0 0))
        else none
      else none)
    if groups.all Option.isSome then some ((groups.map (fun o => o.getD [])).flatten)
    else none

/-- The `case 't'` handler of getopt in both ccbench.c variants (part_004
lines 305-310): the option is accepted iff the jagged parse succeeds AND
the result has exactly one row; otherwise the program prints
"Invalid format for -t" and exits. -/
def tOptionAccepted (s : List Char) : Bool :=
  match P4.parse_jagged_array s with
  | some a => a.length == 1
  | none => false

/-- The test ids distinguished by the statistics-collection switch at the
end of run_benchmark (part_004 lines 1593-1636); every other test id takes
its `default` arm. -/
inductive MoesiTest where
  | storeOnOwnedMine
  | storeOnOwned
  | casConcurrent
  | loadFromL1
  | loadFromMemSize
  | otherTest
deriving DecidableEq

/-- Which PFD stores rank `id` passes to `collect_core_stats` after the
round loop, per the switch on `test_test` (`T` is `test_cores`). -/
def collectedStores (t : MoesiTest) (id T : Nat) : List Nat :=
  match t with
  | .storeOnOwnedMine | .storeOnOwned =>
    if id < 2 then (if id = 1 then [0, 1] else [0]) else []
  | .casConcurrent => [0]
  | .loadFromL1 => if id < 1 then [0] else []
  | .loadFromMemSize => if id < T then [0] else []
  | .otherTest => [0]

/-- `collect_core_stats(store, num_vals, num_print)` (part_004 lines
2801-2817) as its effect on the validity flags: regardless of `num_vals`
(in particular when `test_reps` is 0) the summary is stored and
`store_valid[store]` is set to 1 whenever
`ID < test_cores && store < PFD_NUM_STORES`.  The `abs_deviation_t`
payload comes from `pfd_collect_abs_deviation`, whose source (pfd.c) is
not part of this snapshot; no branch modelled here inspects it. -/
def collect_core_stats (numStores T id : Nat) (valids : List Bool) (store : Nat) : List Bool :=
  if id < T ∧ store < numStores then valids.set store true else valids

/-- The validity flags of rank `id` after the round loop and its
collection switch, starting from the all-invalid `calloc` state. -/
def postRunValids (t : MoesiTest) (numStores T id : Nat) : List Bool :=
  (collectedStores t id T).foldl (collect_core_stats numStores T id) (List.replicate numStores false)

/-- The reporter's per-rank branch (part_004 lines 1668-1672): scan
`store_valid` ascending; with no valid store the
"Thread %u : no samples recorded" line is printed, otherwise the per-core
statistics line. -/
def reporterNoSamples (valids : List Bool) : Bool := !(valids.any (fun b => b))

/-- How many ranks get the "no samples recorded" line. -/
def reporterNoSamplesCount (t : MoesiTest) (numStores T : Nat) : Nat :=
  ((List.range T).filter (fun id => reporterNoSamples (postRunValids t numStores T id))).length

/-- The repetition loop `for (reps = 0; reps < test_reps; reps++)` of
run_benchmark: the round indices a worker executes. -/
def roundIndices (nreps : Nat) : List Nat := List.range nreps

/-- `NUM_BARRIERS` from barrier.h (src/unnamed/part_000 line 42). -/
def NUM_BARRIERS : Nat := 16

/-- Observable effect of one `barrier_wait` call on its caller. -/
inductive BarrierOutcome where
  | outOfRange
  | notParticipant
  | waited
deriving DecidableEq

/-- `barrier_wait` of src/src/barrier.c (lines 100-129): after the entry
`_mm_mfence` (a local fence), a slot number at or above `NUM_BARRIERS`
returns immediately — no blocking, no `pthread_barrier_wait`, no error
path; a caller whose color is 0 also returns; otherwise the caller blocks
in `pthread_barrier_wait` (any non-success, non-serial status exits). -/
def barrier_wait (slot : Nat) (color : Nat → Bool) (id : Nat) : BarrierOutcome :=
  if NUM_BARRIERS ≤ slot then .outOfRange
  else if color id = false then .notParticipant
  else .waited

/-- The per-group barrier reconfiguration loop of main() (part_004 lines
600-607): for every group `g` and slot offset `k < PER_GROUP_SLOTS`, the
index `PER_GROUP_BASE + g * PER_GROUP_SLOTS + k` is computed and
`barrier_set_participants(idx, core_cols[g], ...)` is called only under
the silent guard `bar_idx < NUM_BARRIERS`.  The constants PER_GROUP_BASE
and PER_GROUP_SLOTS come from the ccbench.h header that is not part of
this snapshot, so they remain parameters.  Returns the
(index, participant-count) pairs actually reconfigured. -/
def perGroupBarrierConfig (base slots : Nat) (cols : List Nat) : List (Nat × Nat) :=
  (cols.enum.map (fun gc =>
    (List.range slots).filterMap (fun k =>
      if base + gc.1 * slots + k < NUM_BARRIERS then
        some (base + gc.1 * slots + k, gc.2)
      else none))).flatten

end CCBench

namespace CCBench

theorem rangeAsc_eq (n : Nat) : ∀ a : Int,
    rangeAsc a n = (List.range (n + 1)).map (fun i : Nat => a + (i : Int)) := by
  induction n with
  | zero => intro a; rw [rangeAsc, Nat.zero_add, show List.range 1 = [0] from rfl]; simp
  | succ n ih =>
    intro a
    rw [rangeAsc, ih (a + 1), List.range_succ_eq_map (n + 1)]
    simp only [List.map_cons, List.map_map, Nat.cast_zero, add_zero, List.cons.injEq]
    refine ⟨trivial, ?_⟩
    apply List.map_congr_left
    intro i _
    simp only [Function.comp_apply]
    push_cast
    ring

theorem rangeDesc_eq (n : Nat) : ∀ a : Int,
    rangeDesc a n = (List.range (n + 1)).map (fun i : Nat => a - (i : Int)) := by
  induction n with
  | zero => intro a; rw [rangeDesc, Nat.zero_add, show List.range 1 = [0] from rfl]; simp
  | succ n ih =>
    intro a
    rw [rangeDesc, ih (a - 1), List.range_succ_eq_map (n + 1)]
    simp only [List.map_cons, List.map_map, Nat.cast_zero, sub_zero, List.cons.injEq]
    refine ⟨trivial, ?_⟩
    apply List.map_congr_left
    intro i _
    simp only [Function.comp_apply]
    push_cast
    ring

/-- C7: the jagged-array parser expands an item `a '...' b` into the
inclusive integer sequence from `a` to `b`, stepping by +1 when `b ≥ a`
and by -1 otherwise; in particular parsing "[1...4]" yields the single row
1,2,3,4 and parsing "[4...1]" yields 4,3,2,1. -/
theorem range_item_expansion :
    (∀ a b : Int, b ≥ a →
      expandRange a b = (List.range ((b - a).toNat + 1)).map (fun i : Nat => a + (i : Int))) ∧
    (∀ a b : Int, ¬b ≥ a →
      expandRange a b = (List.range ((a - b).toNat + 1)).map (fun i : Nat => a - (i : Int))) ∧
    P4.parse_jagged_array "[1...4]".data = some [[1, 2, 3, 4]] ∧
    P4.parse_jagged_array "[4...1]".data = some [[4, 3, 2, 1]] := by
  refine ⟨?_, ?_, by decide, by decide⟩
  · intro a b h
    rw [expandRange, if_pos h, rangeAsc_eq]
  · intro a b h
    rw [expandRange, if_neg h, rangeDesc_eq]

theorem range_item_expansion_witness :
    expandRange 1 4 = (List.range (((4 : Int) - 1).toNat + 1)).map (fun i : Nat => 1 + (i : Int)) ∧
    expandRange 4 1 = (List.range (((4 : Int) - 1).toNat + 1)).map (fun i : Nat => 4 - (i : Int)) :=
  ⟨range_item_expansion.1 1 4 (by decide), range_item_expansion.2.1 4 1 (by decide)⟩

/-- C6: for every fence level 0..9 given to `--fence`, the controller's
switch sets `(test_lfence, test_sfence)` exactly as the section-6 table
states, under the encoding none=0, partial=1, full=2, double-write=3. -/
theorem fence_level_table (k : Nat) (hk : k ≤ 9) : fence_modes k = specFencePolicy k := by
  interval_cases k <;> rfl

theorem fence_level_table_witness : fence_modes 9 = specFencePolicy 9 :=
  fence_level_table 9 (by decide)

/-- C10: `barrier_wait` on a slot at or above NUM_BARRIERS (16) returns
immediately — no blocking, no synchronization, no error — and the
controller's per-group reconfiguration loop silently skips every computed
slot index reaching 16, so only indices below 16 are ever reconfigured. -/
theorem barrier_out_of_range_noop :
    (∀ (slot : Nat) (color : Nat → Bool) (id : Nat), NUM_BARRIERS ≤ slot →
      barrier_wait slot color id = BarrierOutcome.outOfRange) ∧
    (∀ (base slots : Nat) (cols : List Nat) (p : Nat × Nat),
      p ∈ perGroupBarrierConfig base slots cols → p.1 < NUM_BARRIERS) := by
  constructor
  · intro slot color id h
    simp [barrier_wait, h]
  · intro base slots cols p hp
    simp only [perGroupBarrierConfig, List.mem_flatten, List.mem_map] at hp
    obtain ⟨l, ⟨gc, hgc, rfl⟩, hpl⟩ := hp
    rw [List.mem_filterMap] at hpl
    obtain ⟨k, hk, hif⟩ := hpl
    by_cases hc : base + gc.1 * slots + k < NUM_BARRIERS
    · rw [if_pos hc] at hif
      cases hif
      exact hc
    · rw [if_neg hc] at hif
      cases hif

theorem barrier_out_of_range_noop_witness :
    barrier_wait 16 (fun _ => true) 0 = BarrierOutcome.outOfRange ∧
    ((6, 2) : Nat × Nat).1 < NUM_BARRIERS :=
  ⟨barrier_out_of_range_noop.1 16 (fun _ => true) 0 (by decide),
   barrier_out_of_range_noop.2 6 5 [2, 2] (6, 2) (by decide)⟩

/-- C4 (code bug): the parser itself accepts "[[12],[13]]" as a two-row
jagged array, and the mapper contains the per-group branch that would
assign test `-t[g][0]` to every rank of group `g`; but the `case 't'`
handler rejects every `-t` whose row count differs from 1, so the program
exits with "Invalid format for -t" and the per-group branch is
unreachable. -/
theorem per_group_test_form_rejected :
    P4.parse_jagged_array "[[12],[13]]".data = some [[12], [13]] ∧
    tOptionAccepted "[[12],[13]]".data = false ∧
    assignTests 0 (some [[12], [13]]) [[0, 1], [2, 3]] = some [12, 12, 13, 13] :=
  ⟨by decide, by decide, by decide⟩

theorem postRunValids_otherTest (T numStores id : Nat) (hid : id < T) (hns : 1 ≤ numStores) :
    postRunValids MoesiTest.otherTest numStores T id
      = (List.replicate numStores false).set 0 true := by
  simp only [postRunValids, collectedStores, List.foldl_cons, List.foldl_nil,
    collect_core_stats]
  rw [if_pos ⟨hid, hns⟩]

theorem reporterNoSamples_set_zero (numStores : Nat) (hns : 1 ≤ numStores) :
    reporterNoSamples ((List.replicate numStores false).set 0 true) = false := by
  cases numStores with
  | zero => omega
  | succ m => simp [List.replicate_succ, reporterNoSamples]

/-- C5 amended: with `test_reps = 0` no worker executes any round of the
repetition loop, but `collect_core_stats` still runs for every rank
(default collection arm) and marks PFD store 0 valid regardless of the
sample count, so the reporter prints the per-core statistics line for
every rank and emits no "no samples recorded" line. -/
theorem zero_reps_reporter (T numStores : Nat) (hns : 1 ≤ numStores) :
    roundIndices 0 = [] ∧
    (∀ id, id < T → reporterNoSamples (postRunValids MoesiTest.otherTest numStores T id) = false) ∧
    reporterNoSamplesCount MoesiTest.otherTest numStores T = 0 := by
  have hid : ∀ id, id < T →
      reporterNoSamples (postRunValids MoesiTest.otherTest numStores T id) = false := by
    intro id h
    rw [postRunValids_otherTest T numStores id h hns]
    exact reporterNoSamples_set_zero numStores hns
  refine ⟨rfl, hid, ?_⟩
  have : (List.range T).filter
      (fun id => reporterNoSamples (postRunValids MoesiTest.otherTest numStores T id)) = [] := by
    rw [List.filter_eq_nil_iff]
    intro a ha
    rw [List.mem_range] at ha
    simp [hid a ha]
  rw [reporterNoSamplesCount, this]
  rfl

theorem zero_reps_reporter_witness :
    roundIndices 0 = [] ∧
    (∀ id, id < 2 → reporterNoSamples (postRunValids MoesiTest.otherTest 2 2 id) = false) ∧
    reporterNoSamplesCount MoesiTest.otherTest 2 2 = 0 :=
  zero_reps_reporter 2 2 (by decide)

/-- C5 counterexample: with `test_reps = 0` and a single rank running a
default-arm test, the reporter emits zero "no samples recorded" lines —
not one per rank as the claim states — because the rank's store 0 is
marked valid by `collect_core_stats` even with zero samples. -/
theorem zero_reps_no_samples_counterexample :
    roundIndices 0 = [] ∧
    reporterNoSamples (postRunValids MoesiTest.otherTest 2 1 0) = false ∧
    reporterNoSamplesCount MoesiTest.otherTest 2 1 = 0 ∧
    ¬reporterNoSamplesCount MoesiTest.otherTest 2 1 = 1 :=
  ⟨rfl, by decide, by decide, by decide⟩

end CCBench

namespace CCBench

theorem race_try_win_fw_some (nreps id rep ρ w : Nat) (s : RaceState)
    (h : s.fw ρ = some w) : (race_try_win nreps id rep s).fw ρ = some w := by
  unfold race_try_win
  split
  · exact h
  · split
    · exact h
    next hx =>
      show (if ρ = rep then some id else s.fw ρ) = some w
      by_cases hρ : ρ = rep
      · subst hρ
        rw [h] at hx
        cases hx
      · rw [if_neg hρ]
        exact h

theorem runRace_append (nreps : Nat) (l₁ l₂ : List (Nat × Nat)) (s : RaceState) :
    runRace nreps (l₁ ++ l₂) s = runRace nreps l₂ (runRace nreps l₁ s) :=
  List.foldl_append _ _ _ _

theorem runRace_fw_some (nreps : Nat) (evs : List (Nat × Nat)) (ρ w : Nat) (s : RaceState)
    (h : s.fw ρ = some w) : (runRace nreps evs s).fw ρ = some w := by
  induction evs generalizing s with
  | nil => exact h
  | cons e rest ih => exact ih _ (race_try_win_fw_some _ _ _ _ _ _ h)

theorem race_step_inv (nreps T id rep : Nat) (s : RaceState) (hid : id < T)
    (h : totalWins T s = claimedCount nreps s) :
    totalWins T (race_try_win nreps id rep s) = claimedCount nreps (race_try_win nreps id rep s) := by
  unfold race_try_win
  split
  · exact h
  next hguard =>
    split
    · exact h
    next hx =>
      have hrep : rep < nreps := Nat.lt_of_not_le hguard
      have hw : (∑ r ∈ Finset.range T,
          (if r = id then s.wins r + 1 else s.wins r)) = totalWins T s + 1 := by
        have hpt : ∀ r, (if r = id then s.wins r + 1 else s.wins r)
            = s.wins r + (if r = id then 1 else 0) := by
          intro r
          by_cases hr : r = id <;> simp [hr]
        calc (∑ r ∈ Finset.range T, (if r = id then s.wins r + 1 else s.wins r))
            = ∑ r ∈ Finset.range T, (s.wins r + (if r = id then 1 else 0)) :=
              Finset.sum_congr rfl (fun r _ => hpt r)
          _ = (∑ r ∈ Finset.range T, s.wins r)
              + (∑ r ∈ Finset.range T, (if r = id then 1 else 0)) := Finset.sum_add_distrib
          _ = totalWins T s + 1 := by
              rw [totalWins, Finset.sum_ite_eq' (Finset.range T) id (fun _ => 1),
                if_pos (Finset.mem_range.mpr hid)]
      have hc : (∑ ρ ∈ Finset.range nreps,
          (if ((if ρ = rep then some id else s.fw ρ)).isSome then 1 else 0))
          = claimedCount nreps s + 1 := by
        have hpt : ∀ ρ, (if ((if ρ = rep then some id else s.fw ρ)).isSome then 1 else 0)
            = (if (s.fw ρ).isSome then 1 else 0) + (if ρ = rep then 1 else 0) := by
          intro ρ
          by_cases hρ : ρ = rep
          · subst hρ
            simp [hx]
          · simp [hρ]
        calc (∑ ρ ∈ Finset.range nreps,
              (if ((if ρ = rep then some id else s.fw ρ)).isSome then 1 else 0))
            = ∑ ρ ∈ Finset.range nreps,
              ((if (s.fw ρ).isSome then 1 else 0) + (if ρ = rep then 1 else 0)) :=
              Finset.sum_congr rfl (fun ρ _ => hpt ρ)
          _ = (∑ ρ ∈ Finset.range nreps, (if (s.fw ρ).isSome then 1 else 0))
              + (∑ ρ ∈ Finset.range nreps, (if ρ = rep then 1 else 0)) := Finset.sum_add_distrib
          _ = claimedCount nreps s + 1 := by
              rw [claimedCount, Finset.sum_ite_eq' (Finset.range nreps) rep (fun _ => 1),
                if_pos (Finset.mem_range.mpr hrep)]
      show (∑ r ∈ Finset.range T, (if r = id then s.wins r + 1 else s.wins r))
          = ∑ ρ ∈ Finset.range nreps,
            (if ((if ρ = rep then some id else s.fw ρ)).isSome then 1 else 0)
      rw [hw, hc, h]

theorem runRace_inv (nreps T : Nat) (evs : List (Nat × Nat)) :
    ∀ s : RaceState, (∀ e ∈ evs, e.1 < T) → totalWins T s = claimedCount nreps s →
      totalWins T (runRace nreps evs s) = claimedCount nreps (runRace nreps evs s) := by
  induction evs with
  | nil => intro s _ h; exact h
  | cons e rest ih =>
    intro s hT h
    exact ih _ (fun x hx => hT x (List.mem_cons_of_mem e hx))
      (race_step_inv nreps T e.1 e.2 s (hT e (List.mem_cons_self e rest)) h)

theorem claimedCount_le (nreps : Nat) (s : RaceState) : claimedCount nreps s ≤ nreps := by
  unfold claimedCount
  calc (∑ ρ ∈ Finset.range nreps, (if (s.fw ρ).isSome then 1 else 0))
      ≤ ∑ _ρ ∈ Finset.range nreps, 1 := by
        apply Finset.sum_le_sum
        intro i _
        split <;> omega
    _ = nreps := by simp

/-- C1: for every repetition at most one rank ever transitions
`first_winner[rep]` out of UNCLAIMED: the transition is the single
compare-and-set of `race_try_win`, so once any linearized prefix of the
trace has claimed a repetition, every extension keeps the same winner;
each successful compare-and-set increments the claiming rank's `wins`
counter by exactly one, so the wins summed over the `T` ranks equal the
number of claimed repetitions, which is at most `nreps`.  (Each
repetition's seeder reset precedes all of that repetition's claims across
the B4 release, so traces start from the all-unclaimed state; the
`resetWinner` entry of `seederRound` precedes `releaseB4`.) -/
theorem race_first_winner_accounting (nreps T : Nat) (evs l₁ l₂ : List (Nat × Nat)) (ρ w : Nat) :
    (evs = l₁ ++ l₂ → (runRace nreps l₁ raceInit).fw ρ = some w →
      (runRace nreps evs raceInit).fw ρ = some w) ∧
    ((∀ e ∈ evs, e.1 < T) →
      totalWins T (runRace nreps evs raceInit) = claimedCount nreps (runRace nreps evs raceInit) ∧
      claimedCount nreps (runRace nreps evs raceInit) ≤ nreps) ∧
    ((seederRound ρ).take 3
        = [SeederAction.primeLine (ρ % 2), SeederAction.fence, SeederAction.resetWinner ρ] ∧
      (seederRound ρ).getLast? = some SeederAction.releaseB4) := by
  refine ⟨?_, ?_, ?_⟩
  · intro he hw
    subst he
    rw [runRace_append]
    exact runRace_fw_some _ _ _ _ _ hw
  · intro hT
    refine ⟨?_, claimedCount_le _ _⟩
    apply runRace_inv _ _ _ _ hT
    simp [totalWins, claimedCount, raceInit]
  · exact ⟨rfl, rfl⟩

theorem race_first_winner_accounting_witness :
    (runRace 2 [(0, 0), (1, 0), (1, 1)] raceInit).fw 0 = some 0 ∧
    (totalWins 2 (runRace 2 [(0, 0), (1, 0), (1, 1)] raceInit)
      = claimedCount 2 (runRace 2 [(0, 0), (1, 0), (1, 1)] raceInit) ∧
     claimedCount 2 (runRace 2 [(0, 0), (1, 0), (1, 1)] raceInit) ≤ 2) :=
  ⟨(race_first_winner_accounting 2 2 [(0, 0), (1, 0), (1, 1)] [(0, 0)] [(1, 0), (1, 1)] 0 0).1
      rfl (by decide),
   (race_first_winner_accounting 2 2 [(0, 0), (1, 0), (1, 1)] [(0, 0)] [(1, 0), (1, 1)] 0 0).2.1
      (by decide)⟩

end CCBench

namespace CCBench

theorem cukLoop_counters (b : Bool) (cap : Nat) (l : List Bool) :
    ∀ s s' : CukRun, cukLoop b cap l s = some s' →
      s'.counters.attempts + s.counters.successes + s.counters.failures
        = s.counters.attempts + s'.counters.successes + s'.counters.failures ∧
      s'.counters.successes = s.counters.successes + 1 := by
  induction l with
  | nil =>
    intro s s' h
    simp [cukLoop] at h
  | cons ok rest ih =>
    intro s s' h
    rw [cukLoop] at h
    split at h
    · cases h
      simp
      omega
    · have := ih _ _ h
      simp at this
      constructor <;> omega

theorem cas_until_success_counters (b : Bool) (cap : Nat) (oracle : List Bool)
    (c : CukCounters) (r : CukResult) (h : cas_until_success b cap oracle c = some r) :
    r.counters.attempts + c.successes + c.failures
      = c.attempts + r.counters.successes + r.counters.failures ∧
    r.counters.successes = c.successes + 1 := by
  unfold cas_until_success at h
  split at h
  · cases h
  next s hs =>
    cases h
    exact cukLoop_counters b cap oracle _ s hs

theorem cukCalls_inv (b : Bool) (cap : Nat) (oracles : List (List Bool)) :
    ∀ c0 c : CukCounters, cukCalls b cap oracles c0 = some c →
      c.attempts + c0.successes + c0.failures = c0.attempts + c.successes + c.failures ∧
      c.successes = c0.successes + oracles.length := by
  induction oracles with
  | nil =>
    intro c0 c h
    rw [cukCalls] at h
    cases h
    simp
  | cons o os ih =>
    intro c0 c h
    rw [cukCalls] at h
    split at h
    · cases h
    next r hr =>
      have h1 := cas_until_success_counters b cap o c0 r hr
      have h2 := ih _ _ h
      simp only [List.length_cons]
      constructor <;> omega

/-- C2: for a rank running the CAS-until-success kernel, after any number
of completed calls the per-rank counters satisfy
`cas_attempts = cas_successes + cas_failures` (each loop iteration
increments `attempts` and then exactly one of `successes` or `failures`),
and since each completed call contributes exactly one success and the
round loop performs at most one call per repetition, `cas_successes` is at
most the number of repetitions. -/
theorem cas_retry_counter_balance (b : Bool) (cap nreps : Nat)
    (oracles : List (List Bool)) (c : CukCounters)
    (h : cukCalls b cap oracles { attempts := 0, successes := 0, failures := 0 } = some c)
    (hlen : oracles.length ≤ nreps) :
    c.attempts = c.successes + c.failures ∧ c.successes = oracles.length ∧
    c.successes ≤ nreps := by
  have := cukCalls_inv b cap oracles _ c h
  simp at this
  refine ⟨by omega, by omega, by omega⟩

theorem cas_retry_counter_balance_witness :
    ({ attempts := 3, successes := 2, failures := 1 } : CukCounters).attempts
      = ({ attempts := 3, successes := 2, failures := 1 } : CukCounters).successes
        + ({ attempts := 3, successes := 2, failures := 1 } : CukCounters).failures ∧
    ({ attempts := 3, successes := 2, failures := 1 } : CukCounters).successes
      = ([[false, true], [true]] : List (List Bool)).length ∧
    ({ attempts := 3, successes := 2, failures := 1 } : CukCounters).successes ≤ 5 :=
  cas_retry_counter_balance true 4 5 [[false, true], [true]]
    { attempts := 3, successes := 2, failures := 1 } (by decide) (by decide)

end CCBench

namespace CCBench

theorem backoff_step_min (cap j : Nat) :
    (if true && decide (min (2 ^ j) cap < cap) then min (min (2 ^ j) cap * 2) cap
     else min (2 ^ j) cap) = min (2 ^ (j + 1)) cap := by
  by_cases hj : 2 ^ j < cap
  · rw [Nat.min_eq_left (Nat.le_of_lt hj), if_pos (by simp [hj]), pow_succ]
  · have hge : cap ≤ 2 ^ j := Nat.le_of_not_lt hj
    rw [Nat.min_eq_right hge, if_neg (by simp)]
    have h2 : cap ≤ 2 ^ (j + 1) := le_trans hge (Nat.pow_le_pow_right (by omega) (by omega))
    rw [Nat.min_eq_right h2]

theorem cukLoop_replicate (cap : Nat) (k : Nat) :
    ∀ (j : Nat) (c : CukCounters) (pl : List Nat) (cl : Nat),
      cukLoop true cap (List.replicate k false ++ [true])
          { counters := c, backoff := min (2 ^ j) cap, pauses := pl, claims := cl }
        = some { counters := { attempts := c.attempts + k + 1, successes := c.successes + 1,
                               failures := c.failures + k },
                 backoff := min (2 ^ (j + k)) cap,
                 pauses := pl ++ (List.range k).map (fun i => min (2 ^ (j + i)) cap),
                 claims := cl + 1 } := by
  induction k with
  | zero =>
    intro j c pl cl
    simp [cukLoop]
  | succ k ih =>
    intro j c pl cl
    rw [List.replicate_succ, List.cons_append, cukLoop]
    simp only [Bool.false_eq_true, if_false, if_true, ite_true, eq_self_iff_true]
    rw [backoff_step_min cap j]
    rw [ih (j + 1) _ _ cl]
    refine congrArg some ?_
    have hatt : c.attempts + 1 + k + 1 = c.attempts + (k + 1) + 1 := by omega
    have hfail : c.failures + 1 + k = c.failures + (k + 1) := by omega
    have hback : j + 1 + k = j + (k + 1) := by omega
    have hpause : (pl ++ [min (2 ^ j) cap]) ++ (List.range k).map (fun i => min (2 ^ (j + 1 + i)) cap)
        = pl ++ (List.range (k + 1)).map (fun i => min (2 ^ (j + i)) cap) := by
      rw [List.append_assoc]
      congr 1
      rw [List.range_succ_eq_map k]
      simp only [List.map_cons, Nat.add_zero, List.map_map, List.singleton_append]
      congr 1
      apply List.map_congr_left
      intro i _
      simp only [Function.comp_apply]
      congr 2
      omega
    rw [hatt, hfail, hback, hpause]

theorem cas_until_success_run (cap k : Nat) (c : CukCounters) (hcap : 1 ≤ cap) :
    cas_until_success true cap (List.replicate k false ++ [true]) c
      = some { counters := { attempts := c.attempts + k + 1, successes := c.successes + 1,
                             failures := c.failures + k },
               pauses := (List.range k).map (fun i => min (2 ^ i) cap),
               claims := 1, latWrites := 1 } := by
  unfold cas_until_success
  have h1 : (1 : Nat) = min (2 ^ 0) cap := by
    rw [pow_zero, Nat.min_eq_left hcap]
  rw [show ({ counters := c, backoff := 1, pauses := [], claims := 0 } : CukRun)
      = { counters := c, backoff := min (2 ^ 0) cap, pauses := [], claims := 0 } from by rw [← h1]]
  rw [cukLoop_replicate cap k 0 c [] 0]
  simp only [Nat.zero_add, List.nil_append]

theorem cukLoop_all_fail (b : Bool) (cap k : Nat) :
    ∀ s : CukRun, cukLoop b cap (List.replicate k false) s = none := by
  induction k with
  | zero => intro s; rfl
  | succ k ih =>
    intro s
    rw [List.replicate_succ, cukLoop]
    simp only [Bool.false_eq_true, if_false]
    exact ih _

theorem cas0LoopF_pre (pre : List (Nat × Bool)) :
    ∀ cl : Nat, (∀ q ∈ pre, q.1 ≠ 0) → ∀ bres : Bool,
      cas0LoopF (pre ++ [(0, bres)]) cl = some (cl + 1, bres) := by
  induction pre with
  | nil => intro cl _ bres; rfl
  | cons q rest ih =>
    intro cl hpre bres
    rw [List.cons_append, cas0LoopF]
    rw [if_neg (hpre q (List.mem_cons_self q rest))]
    exact ih cl (fun x hx => hpre x (List.mem_cons_of_mem q hx)) bres

theorem faiLoopF_pre (draws : List Nat) :
    ∀ cl : Nat, (∀ d ∈ draws, d ≠ 0) → faiLoopF (draws ++ [0]) cl = some (cl + 1) := by
  induction draws with
  | nil => intro cl _; rfl
  | cons d rest ih =>
    intro cl h
    rw [List.cons_append, faiLoopF, if_neg (h d (List.mem_cons_self d rest))]
    exact ih cl (fun x hx => h x (List.mem_cons_of_mem d hx))

theorem swapLoopF_pre (draws : List Nat) :
    ∀ cl : Nat, (∀ d ∈ draws, d ≠ 0) → swapLoopF (draws ++ [0]) cl = some (cl + 1) := by
  induction draws with
  | nil => intro cl _; rfl
  | cons d rest ih =>
    intro cl h
    rw [List.cons_append, swapLoopF, if_neg (h d (List.mem_cons_self d rest))]
    exact ih cl (fun x hx => h x (List.mem_cons_of_mem d hx))

theorem tasLoopF_pre (pre : List (Nat × List Bool)) :
    ∀ cl : Nat, (∀ q ∈ pre, q.1 ≠ 0) → ∀ (inner : List Bool) (m : Nat),
      untilFirstSuccess inner = some m → tasLoopF (pre ++ [(0, inner)]) cl = some (cl + 1) := by
  induction pre with
  | nil =>
    intro cl _ inner m hm
    rw [List.nil_append, tasLoopF, if_pos rfl, hm]
  | cons q rest ih =>
    intro cl h inner m hm
    rw [List.cons_append, tasLoopF, if_neg (h q (List.mem_cons_self q rest))]
    exact ih cl (fun x hx => h x (List.mem_cons_of_mem q hx)) inner m hm

/-- C3: in `cas_until_success` the rank pauses `backoff` iterations after
every failed CAS and then doubles `backoff` up to its cap (the per-rank
`-A` entry when supplied, otherwise the global `--backoff-max`): after the
i-th failure the pause is exactly `min(2^i, cap)`, never exceeding the cap;
the repetition's winner claim happens exactly once, at the first successful
CAS, and a run with no success never claims (the loop does not exit) —
unlike `cas_0_eventually`, `fai`, `tas` and `swap`, which claim exactly
when the drawn line index is 0 regardless of the operation's outcome —
and the common-start latency for the (rank, rep) cell is stored on
success (`latWrites = 1`). -/
theorem cas_until_success_claim_backoff (globalMax : Nat) (perRank : Option (List Nat))
    (id k : Nat) (c : CukCounters) :
    (1 ≤ effectiveBackoffCap globalMax perRank id →
      cas_until_success true (effectiveBackoffCap globalMax perRank id)
          (List.replicate k false ++ [true]) c
        = some { counters := { attempts := c.attempts + k + 1,
                               successes := c.successes + 1, failures := c.failures + k },
                 pauses := (List.range k).map
                   (fun i => min (2 ^ i) (effectiveBackoffCap globalMax perRank id)),
                 claims := 1, latWrites := 1 } ∧
      ∀ p ∈ (List.range k).map
          (fun i => min (2 ^ i) (effectiveBackoffCap globalMax perRank id)),
        p ≤ effectiveBackoffCap globalMax perRank id) ∧
    (∀ s : CukRun, cukLoop true (effectiveBackoffCap globalMax perRank id)
        (List.replicate k false) s = none) ∧
    (∀ (pre : List (Nat × Bool)) (bres : Bool), (∀ q ∈ pre, q.1 ≠ 0) →
      cas_0_eventually (pre ++ [(0, bres)]) = some (1, bres)) ∧
    (∀ draws : List Nat, (∀ d ∈ draws, d ≠ 0) →
      fai (draws ++ [0]) = some 1 ∧ swap (draws ++ [0]) = some 1) ∧
    (∀ (pre : List (Nat × List Bool)) (inner : List Bool) (m : Nat),
      (∀ q ∈ pre, q.1 ≠ 0) → untilFirstSuccess inner = some m →
      tas (pre ++ [(0, inner)]) = some 1) := by
  refine ⟨?_, cukLoop_all_fail true _ k, ?_, ?_, ?_⟩
  · intro hcap
    refine ⟨cas_until_success_run _ k c hcap, ?_⟩
    intro p hp
    rw [List.mem_map] at hp
    obtain ⟨i, _, rfl⟩ := hp
    exact Nat.min_le_right _ _
  · intro pre bres hpre
    exact cas0LoopF_pre pre 0 hpre bres
  · intro draws h
    exact ⟨faiLoopF_pre draws 0 h, swapLoopF_pre draws 0 h⟩
  · intro pre inner m hpre hm
    exact tasLoopF_pre pre 0 hpre inner m hm

theorem cas_until_success_claim_backoff_witness :
    cas_until_success true (effectiveBackoffCap 4 none 0)
        (List.replicate 1 false ++ [true]) { attempts := 0, successes := 0, failures := 0 }
      = some { counters := { attempts := 0 + 1 + 1, successes := 0 + 1, failures := 0 + 1 },
               pauses := (List.range 1).map
                 (fun i => min (2 ^ i) (effectiveBackoffCap 4 none 0)),
               claims := 1, latWrites := 1 } ∧
    cukLoop true (effectiveBackoffCap 4 none 0) (List.replicate 1 false)
        { counters := { attempts := 0, successes := 0, failures := 0 },
          backoff := 1, pauses := [], claims := 0 } = none ∧
    cas_0_eventually ([(3, false)] ++ [(0, false)]) = some (1, false) ∧
    fai ([2] ++ [0]) = some 1 ∧ swap ([2] ++ [0]) = some 1 ∧
    tas ([(5, [])] ++ [(0, [false, true])]) = some 1 := by
  have h := cas_until_success_claim_backoff 4 none 0 1
    { attempts := 0, successes := 0, failures := 0 }
  exact ⟨(h.1 (by decide)).1, h.2.1 _, h.2.2.1 [(3, false)] false (by decide),
    (h.2.2.2.1 [2] (by decide)).1, (h.2.2.2.1 [2] (by decide)).2,
    h.2.2.2.2 [(5, [])] [false, true] 1 (by decide) (by decide)⟩

end CCBench

namespace CCBench

theorem rankMapFrom_group_ge (xss : List (List Nat)) :
    ∀ (n : Nat) (e : RankEntry),
      e ∈ ((List.enumFrom n xss).map (fun gr => gr.2.enum.map (fun jc =>
        ({ core := jc.2, role := jc.1, group := gr.1 } : RankEntry)))).flatten →
      n ≤ e.group := by
  induction xss with
  | nil => intro n e h; simp at h
  | cons row rest ih =>
    intro n e h
    rw [show List.enumFrom n (row :: rest) = (n, row) :: List.enumFrom (n + 1) rest from rfl,
      List.map_cons, List.flatten_cons, List.mem_append] at h
    rcases h with h | h
    · rw [List.mem_map] at h
      obtain ⟨jc, _, rfl⟩ := h
      exact Nat.le_refl n
    · exact Nat.le_of_succ_le (ih (n + 1) e h)

theorem rankMapFrom_roles (xss : List (List Nat)) :
    ∀ (n g : Nat),
      ((((List.enumFrom n xss).map (fun gr => gr.2.enum.map (fun jc =>
          ({ core := jc.2, role := jc.1, group := gr.1 } : RankEntry)))).flatten).filter
        (fun e => e.group == n + g)).map RankEntry.role
      = List.range ((xss.getD g []).length) := by
  induction xss with
  | nil => intro n g; rfl
  | cons row rest ih =>
    intro n g
    rw [show List.enumFrom n (row :: rest) = (n, row) :: List.enumFrom (n + 1) rest from rfl,
      List.map_cons, List.flatten_cons, List.filter_append, List.map_append]
    cases g with
    | zero =>
      have hblock : (row.enum.map (fun jc =>
          ({ core := jc.2, role := jc.1, group := n } : RankEntry))).filter
            (fun e => e.group == n + 0)
          = row.enum.map (fun jc => ({ core := jc.2, role := jc.1, group := n } : RankEntry)) := by
        apply List.filter_eq_self.mpr
        intro e he
        rw [List.mem_map] at he
        obtain ⟨jc, _, rfl⟩ := he
        simp
      have hrest : (((List.enumFrom (n + 1) rest).map (fun gr => gr.2.enum.map (fun jc =>
          ({ core := jc.2, role := jc.1, group := gr.1 } : RankEntry)))).flatten).filter
            (fun e => e.group == n + 0) = [] := by
        rw [List.filter_eq_nil_iff]
        intro e he
        have hge := rankMapFrom_group_ge rest (n + 1) e he
        simp only [Nat.add_zero, beq_iff_eq]
        omega
      rw [hblock, hrest, List.map_nil, List.append_nil, List.map_map]
      rw [show (RankEntry.role ∘ fun jc : Nat × Nat =>
          ({ core := jc.2, role := jc.1, group := n } : RankEntry)) = Prod.fst from rfl,
        List.enum_map_fst]
      rfl
    | succ g' =>
      have hblock : (row.enum.map (fun jc =>
          ({ core := jc.2, role := jc.1, group := n } : RankEntry))).filter
            (fun e => e.group == n + (g' + 1)) = [] := by
        rw [List.filter_eq_nil_iff]
        intro e he
        rw [List.mem_map] at he
        obtain ⟨jc, _, rfl⟩ := he
        simp only [beq_iff_eq]
        omega
      rw [hblock, List.map_nil, List.nil_append]
      rw [show n + (g' + 1) = (n + 1) + g' from by omega]
      exact ih (n + 1) g'

/-- C8: for every parsed `-x` jagged array the rank mapper produces exactly
`T = Σ_g group_size[g]` ranks, the cores follow the flattened `-x` entries
in rank order, and the roles assigned within each group `g` are exactly the
dense list `0, ..., group_size[g] - 1` (and no rank carries a group index
outside the parsed rows). -/
theorem rank_mapper_shape (xss : List (List Nat)) (g : Nat) :
    (rankMap xss).length = (xss.map List.length).sum ∧
    (rankMap xss).map RankEntry.core = xss.flatten ∧
    ((rankMap xss).filter (fun e => e.group == g)).map RankEntry.role
      = List.range ((xss.getD g []).length) := by
  refine ⟨?_, ?_, ?_⟩
  · rw [rankMap, List.length_flatten, List.map_map]
    rw [show (List.length ∘ fun gr : Nat × List Nat => gr.2.enum.map (fun jc =>
        ({ core := jc.2, role := jc.1, group := gr.1 } : RankEntry)))
        = (List.length ∘ Prod.snd) from by
      funext gr
      simp [Function.comp]]
    rw [← List.map_map, List.enum_map_snd]
  · rw [rankMap, List.map_flatten, List.map_map]
    rw [show ((List.map RankEntry.core) ∘ fun gr : Nat × List Nat => gr.2.enum.map (fun jc =>
        ({ core := jc.2, role := jc.1, group := gr.1 } : RankEntry))) = Prod.snd from by
      funext gr
      simp only [Function.comp_apply, List.map_map]
      rw [show (RankEntry.core ∘ fun jc : Nat × Nat =>
          ({ core := jc.2, role := jc.1, group := gr.1 } : RankEntry)) = Prod.snd from rfl,
        List.enum_map_snd]]
    rw [List.enum_map_snd]
  · have h := rankMapFrom_roles xss 0 g
    rw [Nat.zero_add] at h
    exact h

end CCBench

namespace CCBench

theorem digit_not_special (c : Char) (h : isDigitC c = true) :
    isSpaceC c = false ∧ c ≠ '-' ∧ c ≠ '+' ∧ c ≠ ']' ∧ c ≠ '[' ∧ c ≠ ',' ∧ c ≠ '.' := by
  refine ⟨?_, ?_, ?_, ?_, ?_, ?_, ?_⟩
  · rcases Bool.eq_false_or_eq_true (isSpaceC c) with ht | hf
    · exfalso
      simp only [isSpaceC, Bool.or_eq_true, beq_iff_eq] at ht
      rcases ht with ((((e | e) | e) | e) | e) | e <;> subst e <;> exact absurd h (by decide)
    · exact hf
  all_goals intro e; subst e; exact absurd h (by decide)

theorem isDigitC_digitChar (d : Nat) : isDigitC (digitChar d) = true := by
  unfold digitChar
  split <;> decide

theorem digitVal_digitChar : ∀ d : Nat, d < 10 → digitVal (digitChar d) = d := by decide

theorem parseDigits_append (a : List Char) :
    ∀ (l : List Char) (acc : Nat), (∀ c ∈ a, isDigitC c = true) →
      (∀ c, l.head? = some c → isDigitC c = false) →
      parseDigits (a ++ l) acc = (digitsVal a acc, l) := by
  induction a with
  | nil =>
    intro l acc _ hl
    cases l with
    | nil => rfl
    | cons c cs =>
      rw [List.nil_append, parseDigits, if_neg (by rw [hl c rfl]; exact Bool.false_ne_true)]
      rfl
  | cons c a ih =>
    intro l acc ha hl
    rw [List.cons_append, parseDigits, if_pos (ha c (List.mem_cons_self c a))]
    rw [ih l _ (fun x hx => ha x (List.mem_cons_of_mem c hx)) hl]
    rfl

theorem natCharsF_fuel : ∀ (f f' n : Nat) (acc : List Char), n < f → n < f' →
    natCharsF f n acc = natCharsF f' n acc := by
  intro f
  induction f with
  | zero => intro f' n acc h; omega
  | succ f ih =>
    intro f' n acc h h'
    cases f' with
    | zero => omega
    | succ f' =>
      rw [natCharsF, natCharsF]
      by_cases h10 : n < 10
      · rw [if_pos h10, if_pos h10]
      · rw [if_neg h10, if_neg h10]
        have hd : n / 10 < n := Nat.div_lt_self (by omega) (by omega)
        exact ih f' (n / 10) _ (by omega) (by omega)

theorem natCharsF_acc : ∀ (f n : Nat) (acc : List Char), n < f →
    natCharsF f n acc = natCharsF f n [] ++ acc := by
  intro f
  induction f with
  | zero => intro n acc h; omega
  | succ f ih =>
    intro n acc h
    rw [natCharsF, natCharsF]
    by_cases h10 : n < 10
    · rw [if_pos h10, if_pos h10]
      rfl
    · rw [if_neg h10, if_neg h10]
      have hd : n / 10 < n := Nat.div_lt_self (by omega) (by omega)
      rw [ih (n / 10) _ (by omega), ih (n / 10) [digitChar (n % 10)] (by omega)]
      rw [List.append_assoc]
      rfl

theorem natCharsF_digits : ∀ (f n : Nat) (acc : List Char), n < f →
    (∀ c ∈ acc, isDigitC c = true) → ∀ c ∈ natCharsF f n acc, isDigitC c = true := by
  intro f
  induction f with
  | zero => intro n acc h; omega
  | succ f ih =>
    intro n acc h hacc c hc
    rw [natCharsF] at hc
    by_cases h10 : n < 10
    · rw [if_pos h10] at hc
      rcases List.mem_cons.mp hc with rfl | hmem
      · exact isDigitC_digitChar n
      · exact hacc c hmem
    · rw [if_neg h10] at hc
      have hd : n / 10 < n := Nat.div_lt_self (by omega) (by omega)
      refine ih (n / 10) _ (by omega) ?_ c hc
      intro x hx
      rcases List.mem_cons.mp hx with rfl | hmem
      · exact isDigitC_digitChar (n % 10)
      · exact hacc x hmem

theorem natChars_all_digits (n : Nat) : ∀ c ∈ natChars n, isDigitC c = true :=
  natCharsF_digits (n + 1) n [] (by omega) (by intro c hc; cases hc)

theorem natCharsF_ne_nil : ∀ (f n : Nat) (acc : List Char), n < f → natCharsF f n acc ≠ [] := by
  intro f
  induction f with
  | zero => intro n acc h; omega
  | succ f ih =>
    intro n acc h
    rw [natCharsF]
    by_cases h10 : n < 10
    · rw [if_pos h10]
      exact List.cons_ne_nil _ _
    · rw [if_neg h10]
      have hd : n / 10 < n := Nat.div_lt_self (by omega) (by omega)
      exact ih (n / 10) _ (by omega)

theorem natChars_ne_nil (n : Nat) : natChars n ≠ [] :=
  natCharsF_ne_nil (n + 1) n [] (by omega)

theorem digitsVal_append_singleton (a : List Char) (c : Char) (acc : Nat) :
    digitsVal (a ++ [c]) acc = digitsVal a acc * 10 + digitVal c := by
  rw [digitsVal, List.foldl_append]
  rfl

theorem digitsVal_natChars (n : Nat) : ∀ acc : Nat,
    digitsVal (natChars n) acc = acc * 10 ^ (natChars n).length + n := by
  induction n using Nat.strong_induction_on with
  | _ n ih =>
    intro acc
    by_cases h10 : n < 10
    · rw [show natChars n = [digitChar n] from by rw [natChars, natCharsF, if_pos h10]]
      rw [show digitsVal [digitChar n] acc = acc * 10 + digitVal (digitChar n) from rfl]
      rw [digitVal_digitChar n h10]
      simp [pow_one]
    · have hd : n / 10 < n := Nat.div_lt_self (by omega) (by omega)
      have hstep : natChars n = natChars (n / 10) ++ [digitChar (n % 10)] := by
        rw [natChars, natCharsF, if_neg h10]
        rw [natCharsF_acc n (n / 10) [digitChar (n % 10)] hd]
        rw [natCharsF_fuel n (n / 10 + 1) (n / 10) [] hd (by omega)]
        rfl
      rw [hstep, digitsVal_append_singleton]
      rw [ih (n / 10) hd acc]
      rw [digitVal_digitChar (n % 10) (Nat.mod_lt n (by omega))]
      rw [List.length_append, List.length_cons, List.length_nil]
      rw [pow_succ]
      have hdm := Nat.div_add_mod n 10
      set B := acc * 10 ^ (natChars (n / 10)).length with hB
      rw [show acc * (10 ^ (natChars (n / 10)).length * 10) = B * 10 from by rw [hB]; ring]
      omega

end CCBench

namespace CCBench

theorem strtolC_cons_digit (c : Char) (cs : List Char) (hc : isDigitC c = true) :
    strtolC (c :: cs)
      = some (((parseDigits (c :: cs) 0).1 : Int), (parseDigits (c :: cs) 0).2) := by
  obtain ⟨hsp, hminus, hplus, _, _, _, _⟩ := digit_not_special c hc
  simp [strtolC, List.dropWhile_cons, hsp, hminus, hplus, hc]

theorem strtolC_cons_minus (c2 : Char) (cs2 : List Char) (hc : isDigitC c2 = true) :
    strtolC ('-' :: c2 :: cs2)
      = some (-((parseDigits (c2 :: cs2) 0).1 : Int), (parseDigits (c2 :: cs2) 0).2) := by
  simp [strtolC, List.dropWhile_cons, hc, show isSpaceC '-' = false from rfl]

theorem strtolC_natChars (m : Nat) (l : List Char)
    (hl : ∀ c, l.head? = some c → isDigitC c = false) :
    strtolC (natChars m ++ l) = some ((m : Int), l) := by
  obtain ⟨c, cs, hm⟩ := List.exists_cons_of_ne_nil (natChars_ne_nil m)
  have hc : isDigitC c = true :=
    natChars_all_digits m c (by rw [hm]; exact List.mem_cons_self c cs)
  rw [hm, List.cons_append, strtolC_cons_digit c (cs ++ l) hc,
    ← List.cons_append, ← hm,
    parseDigits_append (natChars m) l 0 (natChars_all_digits m) hl,
    digitsVal_natChars m 0]
  simp

theorem strtolC_intChars (i : Int) (l : List Char)
    (hl : ∀ c, l.head? = some c → isDigitC c = false) :
    strtolC (intChars i ++ l) = some (i, l) := by
  by_cases hi : i < 0
  · rw [show intChars i = '-' :: natChars (-i).toNat from by rw [intChars, if_pos hi]]
    obtain ⟨c, cs, hm⟩ := List.exists_cons_of_ne_nil (natChars_ne_nil (-i).toNat)
    have hc : isDigitC c = true :=
      natChars_all_digits _ c (by rw [hm]; exact List.mem_cons_self c cs)
    rw [List.cons_append, hm, List.cons_append, strtolC_cons_minus c (cs ++ l) hc,
      ← List.cons_append, ← hm,
      parseDigits_append (natChars (-i).toNat) l 0 (natChars_all_digits _) hl,
      digitsVal_natChars _ 0]
    rw [Nat.zero_mul, Nat.zero_add, Int.toNat_of_nonneg (by omega)]
    simp
  · rw [show intChars i = natChars i.toNat from by rw [intChars, if_neg hi]]
    rw [strtolC_natChars i.toNat l hl, Int.toNat_of_nonneg (by omega)]

theorem intChars_head (i : Int) :
    ∃ c cs, intChars i = c :: cs ∧ (isDigitC c = true ∨ c = '-') := by
  by_cases hi : i < 0
  · exact ⟨'-', natChars (-i).toNat, by rw [intChars, if_pos hi], Or.inr rfl⟩
  · obtain ⟨c, cs, hm⟩ := List.exists_cons_of_ne_nil (natChars_ne_nil i.toNat)
    refine ⟨c, cs, by rw [intChars, if_neg hi]; exact hm, Or.inl ?_⟩
    exact natChars_all_digits _ c (by rw [hm]; exact List.mem_cons_self c cs)

theorem serRowBody_head (i : Int) (tl : List Int) :
    ∃ c cs, serRowBody (i :: tl) = c :: cs ∧ (isDigitC c = true ∨ c = '-') := by
  obtain ⟨c, cs, hic, hc⟩ := intChars_head i
  cases tl with
  | nil => exact ⟨c, cs, by rw [show serRowBody [i] = intChars i from rfl, hic], hc⟩
  | cons j tl' =>
    refine ⟨c, cs ++ ',' :: serRowBody (j :: tl'), ?_, hc⟩
    rw [show serRowBody (i :: j :: tl') = intChars i ++ ',' :: serRowBody (j :: tl') from rfl,
      hic, List.cons_append]

end CCBench

namespace CCBench

theorem token_facts (c : Char) (hc : isDigitC c = true ∨ c = '-') :
    (isDigitC c || c == '-' || c == ']') = true ∧ (c == ' ' || c == '\t' || c == ',') = false ∧
    c ≠ ']' ∧ c ≠ '.' ∧ (isDigitC c || c == '-') = true := by
  rcases hc with h | rfl
  · obtain ⟨hsp, _, _, hr, _, hcom, hdot⟩ := digit_not_special c h
    simp only [isSpaceC, Bool.or_eq_false_iff, beq_eq_false_iff_ne] at hsp
    obtain ⟨⟨⟨⟨⟨h1, h2⟩, _⟩, _⟩, _⟩, _⟩ := hsp
    refine ⟨by simp [h], ?_, hr, hdot, by simp [h]⟩
    simp [h1, h2, hcom]
  · exact ⟨by decide, by decide, by decide, by decide, by decide⟩

theorem skipToItem_stop (c : Char) (cs : List Char)
    (h : (isDigitC c || c == '-' || c == ']') = true) : P4.skipToItem (c :: cs) = c :: cs := by
  rw [P4.skipToItem, List.dropWhile_cons]
  simp [h]

theorem skipToItem_drop (c : Char) (cs : List Char)
    (h : (isDigitC c || c == '-' || c == ']') = false) :
    P4.skipToItem (c :: cs) = P4.skipToItem cs := by
  unfold P4.skipToItem
  rw [List.dropWhile_cons]
  simp [h]

theorem skipSpComma_stop (c : Char) (cs : List Char)
    (h : (c == ' ' || c == '\t' || c == ',') = false) : P4.skipSpComma (c :: cs) = c :: cs := by
  rw [P4.skipSpComma, List.dropWhile_cons]
  simp [h]

theorem skipSpComma_drop (c : Char) (cs : List Char)
    (h : (c == ' ' || c == '\t' || c == ',') = true) :
    P4.skipSpComma (c :: cs) = P4.skipSpComma cs := by
  unfold P4.skipSpComma
  rw [List.dropWhile_cons]
  simp [h]

theorem isEllipsis_cons_ne (c : Char) (t : List Char) (hc : c ≠ '.') :
    isEllipsis (c :: t) = false := by
  simp only [isEllipsis, decide_eq_false_iff_not]
  intro h
  rw [List.take_succ_cons] at h
  injection h with h1 _
  exact hc h1

theorem parseRowF_succ (f : Nat) (l : List Char) (row : List Int) :
    P4.parseRowF (f + 1) l row
      = match P4.skipToItem l with
        | [] => some (row, [])
        | c :: t =>
          if c = ']' then some (row, c :: t)
          else
            match strtolC (c :: t) with
            | none => none
            | some (a, p) =>
              if isEllipsis (P4.skipSpComma p) then
                match strtolC (P4.skipSpComma ((P4.skipSpComma p).drop 3)) with
                | none => none
                | some (b, p4) => P4.parseRowF f p4 (row ++ expandRange a b)
              else P4.parseRowF f p (row ++ [a]) := rfl

theorem parseRowF_close (f : Nat) (l : List Char) (row : List Int) (t : List Char)
    (hskip : P4.skipToItem l = ']' :: t) :
    P4.parseRowF (f + 1) l row = some (row, ']' :: t) := by
  rw [parseRowF_succ, hskip]
  simp

theorem parseRowF_stepItem (f : Nat) (l : List Char) (row : List Int) (c : Char) (t : List Char)
    (a : Int) (p : List Char) (hskip : P4.skipToItem l = c :: t) (hbr : c ≠ ']')
    (hstr : strtolC (c :: t) = some (a, p)) (hell : isEllipsis (P4.skipSpComma p) = false) :
    P4.parseRowF (f + 1) l row = P4.parseRowF f p (row ++ [a]) := by
  rw [parseRowF_succ, hskip]
  simp only [hbr, if_false, hstr, hell, Bool.false_eq_true, ite_false]

theorem parseRowF_junk (f : Nat) (c : Char) (l : List Char) (row : List Int)
    (h : (isDigitC c || c == '-' || c == ']') = false) :
    P4.parseRowF (f + 1) (c :: l) row = P4.parseRowF (f + 1) l row := by
  rw [parseRowF_succ, parseRowF_succ, skipToItem_drop c l h]

theorem parseRowF_ser (items : List Int) :
    ∀ (f : Nat) (acc : List Int) (rest : List Char), items.length < f + 1 →
      P4.parseRowF (f + 1) (serRowBody items ++ ']' :: rest) acc
        = some (acc ++ items, ']' :: rest) := by
  induction items with
  | nil =>
    intro f acc rest _
    rw [show serRowBody [] ++ ']' :: rest = ']' :: rest from rfl]
    rw [parseRowF_close f _ acc rest (skipToItem_stop ']' rest (by decide))]
    simp
  | cons i tl ih =>
    intro f acc rest hf
    obtain ⟨c, cs, hic, hc⟩ := intChars_head i
    obtain ⟨hstop, hsp, hbr, hdot, htok⟩ := token_facts c hc
    cases tl with
    | nil =>
      have hshape : serRowBody [i] ++ ']' :: rest = c :: (cs ++ ']' :: rest) := by
        rw [show serRowBody [i] = intChars i from rfl, hic]
        rfl
      have hskip : P4.skipToItem (serRowBody [i] ++ ']' :: rest)
          = c :: (cs ++ ']' :: rest) := by
        rw [hshape]
        exact skipToItem_stop c _ hstop
      have hstr : strtolC (c :: (cs ++ ']' :: rest)) = some (i, ']' :: rest) := by
        rw [show c :: (cs ++ ']' :: rest) = intChars i ++ ']' :: rest from by rw [hic]; rfl]
        exact strtolC_intChars i _ (by intro x hx; cases hx; rfl)
      have hell : isEllipsis (P4.skipSpComma (']' :: rest)) = false := by
        rw [skipSpComma_stop ']' rest (by decide)]
        exact isEllipsis_cons_ne ']' rest (by decide)
      simp only [List.length_cons, List.length_nil] at hf
      obtain ⟨f', rfl⟩ : ∃ f', f = f' + 1 := ⟨f - 1, by omega⟩
      rw [parseRowF_stepItem (f' + 1) _ acc c _ i _ hskip hbr hstr hell]
      rw [parseRowF_close f' _ (acc ++ [i]) rest (skipToItem_stop ']' rest (by decide))]
    | cons j tl' =>
      obtain ⟨c2, cs2, hjc, hc2⟩ := serRowBody_head j tl'
      obtain ⟨hstop2, hsp2, hbr2, hdot2, htok2⟩ := token_facts c2 hc2
      have hshape : serRowBody (i :: j :: tl') ++ ']' :: rest
          = c :: (cs ++ (',' :: (serRowBody (j :: tl') ++ ']' :: rest))) := by
        rw [show serRowBody (i :: j :: tl') = intChars i ++ ',' :: serRowBody (j :: tl') from rfl,
          hic]
        simp
      have hskip : P4.skipToItem (serRowBody (i :: j :: tl') ++ ']' :: rest)
          = c :: (cs ++ (',' :: (serRowBody (j :: tl') ++ ']' :: rest))) := by
        rw [hshape]
        exact skipToItem_stop c _ hstop
      have hstr : strtolC (c :: (cs ++ (',' :: (serRowBody (j :: tl') ++ ']' :: rest))))
          = some (i, ',' :: (serRowBody (j :: tl') ++ ']' :: rest)) := by
        rw [show c :: (cs ++ (',' :: (serRowBody (j :: tl') ++ ']' :: rest)))
            = intChars i ++ (',' :: (serRowBody (j :: tl') ++ ']' :: rest)) from by rw [hic]; rfl]
        exact strtolC_intChars i _ (by intro x hx; cases hx; rfl)
      have hell : isEllipsis (P4.skipSpComma (',' :: (serRowBody (j :: tl') ++ ']' :: rest)))
          = false := by
        rw [skipSpComma_drop ',' _ (by decide)]
        rw [show serRowBody (j :: tl') ++ ']' :: rest = c2 :: (cs2 ++ ']' :: rest) from by
          rw [hjc]; rfl]
        rw [skipSpComma_stop c2 _ hsp2]
        exact isEllipsis_cons_ne c2 _ hdot2
      simp only [List.length_cons] at hf
      obtain ⟨f', rfl⟩ : ∃ f', f = f' + 1 := ⟨f - 1, by omega⟩
      rw [parseRowF_stepItem (f' + 1) _ acc c _ i _ hskip hbr hstr hell]
      rw [parseRowF_junk f' ',' _ (acc ++ [i]) (by decide)]
      rw [ih f' (acc ++ [i]) rest (by simp only [List.length_cons]; omega)]
      simp

end CCBench

namespace CCBench

theorem parseLoopF_succ (f : Nat) (l : List Char) (acc : List (List Int)) :
    P4.parseLoopF (f + 1) l acc
      = match l.dropWhile (fun c => !(c == '[')) with
        | [] => if acc.isEmpty then none else some acc
        | _ :: rest =>
          match P4.parseRowF (rest.length + 1) rest [] with
          | none => none
          | some (row, rem) =>
            match rem with
            | ']' :: rem2 => P4.parseLoopF f rem2 (acc ++ [row])
            | _ => none := rfl

theorem parseLoopF_junk (f : Nat) (c : Char) (l : List Char) (acc : List (List Int))
    (h : (c == '[') = false) :
    P4.parseLoopF (f + 1) (c :: l) acc = P4.parseLoopF (f + 1) l acc := by
  rw [parseLoopF_succ, parseLoopF_succ, List.dropWhile_cons]
  simp [h]

theorem parseLoopF_openRow (f : Nat) (l rest : List Char) (acc : List (List Int))
    (row : List Int) (rem2 : List Char)
    (hdrop : l.dropWhile (fun c => !(c == '[')) = '[' :: rest)
    (hrow : P4.parseRowF (rest.length + 1) rest [] = some (row, ']' :: rem2)) :
    P4.parseLoopF (f + 1) l acc = P4.parseLoopF f rem2 (acc ++ [row]) := by
  rw [parseLoopF_succ, hdrop]
  simp only [hrow]

theorem serRowsBody_shape (r : List Int) (tl : List (List Int)) :
    serRowsBody (r :: tl) ++ [']'] = '[' :: (serRowBody r ++ ']' :: serRowsTail tl) := by
  cases tl with
  | nil =>
    rw [show serRowsBody [r] = serRow r from rfl, serRow,
      show serRowsTail ([] : List (List Int)) = [']'] from rfl]
    simp
  | cons r2 tl' =>
    rw [show serRowsBody (r :: r2 :: tl') = serRow r ++ ',' :: serRowsBody (r2 :: tl') from rfl,
      serRow, show serRowsTail (r2 :: tl') = ',' :: (serRowsBody (r2 :: tl') ++ [']']) from rfl]
    simp

theorem serRowBody_length_ge (row : List Int) : row.length ≤ (serRowBody row).length := by
  induction row with
  | nil => simp [serRowBody]
  | cons i tl ih =>
    obtain ⟨c, cs, hic, _⟩ := intChars_head i
    cases tl with
    | nil =>
      rw [show serRowBody [i] = intChars i from rfl, hic]
      simp
    | cons j tl' =>
      rw [show serRowBody (i :: j :: tl') = intChars i ++ ',' :: serRowBody (j :: tl') from rfl,
        hic]
      simp only [List.length_cons, List.length_append] at ih ⊢
      omega

theorem serRowsBody_length_ge (rows : List (List Int)) :
    rows.length ≤ (serRowsBody rows).length := by
  induction rows with
  | nil => simp [serRowsBody]
  | cons r tl ih =>
    cases tl with
    | nil =>
      rw [show serRowsBody [r] = serRow r from rfl, serRow]
      simp
    | cons r2 tl' =>
      rw [show serRowsBody (r :: r2 :: tl') = serRow r ++ ',' :: serRowsBody (r2 :: tl') from rfl,
        serRow]
      simp only [List.length_cons, List.length_append] at ih ⊢
      omega

theorem parseLoopF_after_row (rows : List (List Int)) :
    ∀ (f : Nat) (acc : List (List Int)), acc ≠ [] → rows.length < f →
      P4.parseLoopF (f + 1) (serRowsTail rows) acc = some (acc ++ rows) := by
  induction rows with
  | nil =>
    intro f acc hacc _
    rw [show serRowsTail ([] : List (List Int)) = [']'] from rfl]
    rw [parseLoopF_junk f ']' [] acc (by decide)]
    rw [parseLoopF_succ]
    rw [show List.dropWhile (fun c => !(c == '[')) [] = [] from rfl]
    cases acc with
    | nil => exact absurd rfl hacc
    | cons a as => simp
  | cons r tl ih =>
    intro f acc hacc hf
    rw [show serRowsTail (r :: tl) = ',' :: (serRowsBody (r :: tl) ++ [']']) from rfl]
    rw [parseLoopF_junk f ',' _ acc (by decide)]
    have hshape := serRowsBody_shape r tl
    have hdrop : (serRowsBody (r :: tl) ++ [']']).dropWhile (fun c => !(c == '['))
        = '[' :: (serRowBody r ++ ']' :: serRowsTail tl) := by
      rw [hshape, List.dropWhile_cons]
      simp
    have hrow : P4.parseRowF ((serRowBody r ++ ']' :: serRowsTail tl).length + 1)
        (serRowBody r ++ ']' :: serRowsTail tl) [] = some (r, ']' :: serRowsTail tl) :=
      parseRowF_ser r _ [] _ (by
        have := serRowBody_length_ge r
        simp only [List.length_append, List.length_cons]
        omega)
    obtain ⟨f', rfl⟩ : ∃ f', f = f' + 1 := ⟨f - 1, by
      simp only [List.length_cons] at hf
      omega⟩
    rw [parseLoopF_openRow (f' + 1) _ _ acc r _ hdrop hrow]
    rw [ih f' (acc ++ [r]) (by simp) (by simp only [List.length_cons] at hf; omega)]
    simp

theorem p4_parse_serRow (row : List Int) : P4.parse_jagged_array (serRow row) = some [row] := by
  rw [P4.parse_jagged_array]
  have hdrop : (serRow row).dropWhile (fun c => !(c == '['))
      = '[' :: (serRowBody row ++ [']']) := by
    rw [serRow, List.dropWhile_cons]
    simp
  have hrow : P4.parseRowF ((serRowBody row ++ [']']).length + 1) (serRowBody row ++ [']']) []
      = some (row, ']' :: []) := by
    rw [show serRowBody row ++ [']'] = serRowBody row ++ ']' :: [] from rfl]
    exact parseRowF_ser row _ [] [] (by
      have := serRowBody_length_ge row
      simp only [List.length_append, List.length_cons, List.length_nil]
      omega)
  rw [parseLoopF_openRow (serRow row).length _ _ [] row [] hdrop hrow]
  obtain ⟨g, hg⟩ : ∃ g, (serRow row).length = g + 1 := ⟨(serRow row).length - 1, by
    rw [serRow]
    simp⟩
  rw [hg, parseLoopF_succ]
  rw [show List.dropWhile (fun c => !(c == '[')) [] = [] from rfl]
  simp

theorem p4_parse_serMulti (rows : List (List Int)) (hne : rows ≠ []) :
    P4.parse_jagged_array (serMulti rows) = some rows := by
  obtain ⟨r, tl, rfl⟩ := List.exists_cons_of_ne_nil hne
  rw [P4.parse_jagged_array, serMulti]
  have hdrop : ('[' :: (serRowsBody (r :: tl) ++ [']'])).dropWhile (fun c => !(c == '['))
      = '[' :: (serRowsBody (r :: tl) ++ [']']) := by
    rw [List.dropWhile_cons]
    simp
  have hrow : P4.parseRowF ((serRowsBody (r :: tl) ++ [']']).length + 1)
      (serRowsBody (r :: tl) ++ [']']) [] = some (r, ']' :: serRowsTail tl) := by
    rw [serRowsBody_shape r tl]
    rw [show List.length ('[' :: (serRowBody r ++ ']' :: serRowsTail tl))
        = (serRowBody r ++ ']' :: serRowsTail tl).length + 1 from by simp]
    rw [parseRowF_junk _ '[' _ [] (by decide)]
    exact parseRowF_ser r _ [] _ (by
      have := serRowBody_length_ge r
      simp only [List.length_append, List.length_cons]
      omega)
  rw [show List.length ('[' :: (serRowsBody (r :: tl) ++ [']']))
      = (serRowsBody (r :: tl) ++ [']']).length + 1 from by simp]
  rw [parseLoopF_openRow ((serRowsBody (r :: tl) ++ [']']).length + 1) _ _ [] r _ hdrop hrow]
  have hlen : tl.length < (serRowsBody (r :: tl) ++ [']']).length := by
    have h1 := serRowsBody_length_ge (r :: tl)
    simp only [List.length_cons] at h1
    simp only [List.length_append, List.length_cons, List.length_nil]
    omega
  rw [List.nil_append]
  rw [parseLoopF_after_row tl _ [r] (by simp) hlen]
  simp

end CCBench

namespace CCBench

theorem dropWhile_all_append (p : Char → Bool) (a : List Char) :
    ∀ l : List Char, (∀ c ∈ a, p c = true) → (∀ c, l.head? = some c → p c = false) →
      (a ++ l).dropWhile p = l := by
  induction a with
  | nil =>
    intro l _ hl
    cases l with
    | nil => rfl
    | cons c cs =>
      rw [List.nil_append, List.dropWhile_cons]
      simp [hl c rfl]
  | cons c a ih =>
    intro l ha hl
    rw [List.cons_append, List.dropWhile_cons]
    simp only [ha c (List.mem_cons_self c a), if_true]
    exact ih l (fun x hx => ha x (List.mem_cons_of_mem c hx)) hl

theorem intChars_all_token (i : Int) :
    ∀ c ∈ intChars i, (isDigitC c || c == '-') = true := by
  intro c hc
  by_cases hi : i < 0
  · rw [intChars, if_pos hi] at hc
    rcases List.mem_cons.mp hc with rfl | hmem
    · decide
    · simp [natChars_all_digits _ c hmem]
  · rw [intChars, if_neg hi] at hc
    simp [natChars_all_digits _ c hc]

theorem countTokensF_cons (f : Nat) (c : Char) (cs : List Char) (n : Nat) :
    CC.countTokensF (f + 1) (c :: cs) n
      = if c = ']' then some (n, cs)
        else if (isDigitC c || c == '-') = true then
          CC.countTokensF f (cs.dropWhile (fun d => isDigitC d || d == '-')) (n + 1)
        else CC.countTokensF f cs n := rfl

theorem countTokensF_ser (items : List Int) :
    ∀ (f n : Nat) (rest : List Char), (serRowBody items).length < f + 1 →
      CC.countTokensF (f + 1) (serRowBody items ++ ']' :: rest) n
        = some (n + items.length, rest) := by
  induction items with
  | nil =>
    intro f n rest _
    rw [show serRowBody [] ++ ']' :: rest = ']' :: rest from rfl, countTokensF_cons]
    simp
  | cons i tl ih =>
    intro f n rest hf
    obtain ⟨c, cs, hic, hc⟩ := intChars_head i
    obtain ⟨_, _, hbr, _, htok⟩ := token_facts c hc
    have hcs : ∀ x ∈ cs, (isDigitC x || x == '-') = true := by
      intro x hx
      exact intChars_all_token i x (by rw [hic]; exact List.mem_cons_of_mem c hx)
    have hlen : (intChars i).length = cs.length + 1 := by rw [hic]; rfl
    cases tl with
    | nil =>
      rw [show serRowBody [i] ++ ']' :: rest = c :: (cs ++ ']' :: rest) from by
        rw [show serRowBody [i] = intChars i from rfl, hic]; rfl]
      rw [countTokensF_cons, if_neg hbr, if_pos htok]
      rw [dropWhile_all_append _ cs (']' :: rest) hcs (by intro x hx; cases hx; rfl)]
      have h1 : (serRowBody [i]).length = cs.length + 1 := by
        rw [show serRowBody [i] = intChars i from rfl]; exact hlen
      obtain ⟨f2, rfl⟩ : ∃ f2, f = f2 + 1 := ⟨f - 1, by omega⟩
      rw [countTokensF_cons]
      simp
    | cons j tl' =>
      rw [show serRowBody (i :: j :: tl') ++ ']' :: rest
          = c :: (cs ++ (',' :: (serRowBody (j :: tl') ++ ']' :: rest))) from by
        rw [show serRowBody (i :: j :: tl')
            = intChars i ++ ',' :: serRowBody (j :: tl') from rfl, hic]
        simp]
      rw [countTokensF_cons, if_neg hbr, if_pos htok]
      rw [dropWhile_all_append _ cs _ hcs (by intro x hx; cases hx; rfl)]
      have h1 : (serRowBody (i :: j :: tl')).length
          = cs.length + 1 + 1 + (serRowBody (j :: tl')).length := by
        rw [show serRowBody (i :: j :: tl')
            = intChars i ++ ',' :: serRowBody (j :: tl') from rfl]
        simp only [List.length_append, List.length_cons]
        omega
      obtain ⟨f2, rfl⟩ : ∃ f2, f = f2 + 1 := ⟨f - 1, by omega⟩
      rw [countTokensF_cons, if_neg (by decide), if_neg (by decide)]
      obtain ⟨f3, rfl⟩ : ∃ f3, f2 = f3 + 1 := ⟨f2 - 1, by omega⟩
      rw [ih f3 (n + 1) rest (by omega)]
      simp only [List.length_cons]
      rw [Nat.add_assoc, Nat.add_comm 1 (tl'.length + 1)]

theorem parseValsF_succ (j : Nat) (l : List Char) :
    CC.parseValsF (j + 1) l
      = match strtolC (l.dropWhile (fun c => !(isDigitC c || c == '-'))) with
        | some (v, r) => v :: CC.parseValsF j r
        | none => 0 :: CC.parseValsF j (l.dropWhile (fun c => !(isDigitC c || c == '-'))) := rfl

theorem parseValsF_ser (items : List Int) :
    ∀ (junk X : List Char), (∀ c ∈ junk, (isDigitC c || c == '-') = false) →
      (∀ c, X.head? = some c → isDigitC c = false) →
      CC.parseValsF items.length (junk ++ (serRowBody items ++ X)) = items := by
  induction items with
  | nil => intro junk X _ _; rfl
  | cons i tl ih =>
    intro junk X hjunk hX
    obtain ⟨c, cs, hic, hc⟩ := intChars_head i
    obtain ⟨_, _, _, _, htok⟩ := token_facts c hc
    rw [show (i :: tl).length = tl.length + 1 from rfl, parseValsF_succ]
    cases tl with
    | nil =>
      have hdw : (junk ++ (serRowBody [i] ++ X)).dropWhile
          (fun c => !(isDigitC c || c == '-')) = intChars i ++ X := by
        rw [show serRowBody [i] = intChars i from rfl]
        exact dropWhile_all_append _ junk (intChars i ++ X)
          (by intro x hx; simp [hjunk x hx])
          (by
            intro x hx
            rw [hic, List.cons_append] at hx
            cases hx
            simp [htok])
      rw [hdw, strtolC_intChars i X hX]
      rfl
    | cons j tl' =>
      have hshape : serRowBody (i :: j :: tl') ++ X
          = intChars i ++ (',' :: (serRowBody (j :: tl') ++ X)) := by
        rw [show serRowBody (i :: j :: tl')
            = intChars i ++ ',' :: serRowBody (j :: tl') from rfl]
        simp
      have hdw : (junk ++ (serRowBody (i :: j :: tl') ++ X)).dropWhile
          (fun c => !(isDigitC c || c == '-'))
          = intChars i ++ (',' :: (serRowBody (j :: tl') ++ X)) := by
        rw [hshape]
        exact dropWhile_all_append _ junk _
          (by intro x hx; simp [hjunk x hx])
          (by
            intro x hx
            rw [hic, List.cons_append] at hx
            cases hx
            simp [htok])
      rw [hdw, strtolC_intChars i _ (by intro x hx; cases hx; rfl)]
      have := ih [','] X (by
        intro x hx
        rcases List.mem_singleton.mp hx with rfl
        decide) hX
      rw [show [','] ++ (serRowBody (j :: tl') ++ X)
          = ',' :: (serRowBody (j :: tl') ++ X) from rfl] at this
      rw [show (List.length (j :: tl')) = tl'.length + 1 from rfl] at this
      simp only [List.length_cons]
      rw [this]

end CCBench

namespace CCBench

theorem ccLoopF_nil (f : Nat) (acc : List (List Int)) :
    CC.parseLoopF (f + 1) [] acc = if acc.isEmpty then none else some acc := rfl

theorem ccLoopF_cons (f : Nat) (c : Char) (cs : List Char) (acc : List (List Int)) :
    CC.parseLoopF (f + 1) (c :: cs) acc
      = if c = '[' then
          match CC.countTokensF (cs.length + 1) cs 0 with
          | none => none
          | some (n, rest) => CC.parseLoopF f rest (acc ++ [CC.parseValsF n cs])
        else CC.parseLoopF f cs acc := rfl

theorem countTokensF_junk (f : Nat) (c : Char) (l : List Char) (n : Nat)
    (h1 : c ≠ ']') (h2 : (isDigitC c || c == '-') = false) :
    CC.countTokensF (f + 1) (c :: l) n = CC.countTokensF f l n := by
  rw [countTokensF_cons, if_neg h1, if_neg (by simp [h2])]

theorem serRowsBody_length_ge2 (rows : List (List Int)) :
    2 * rows.length ≤ (serRowsBody rows).length := by
  induction rows with
  | nil => simp [serRowsBody]
  | cons r tl ih =>
    cases tl with
    | nil =>
      rw [show serRowsBody [r] = serRow r from rfl, serRow]
      simp
    | cons r2 tl' =>
      rw [show serRowsBody (r :: r2 :: tl') = serRow r ++ ',' :: serRowsBody (r2 :: tl') from rfl,
        serRow]
      simp only [List.length_cons, List.length_append] at ih ⊢
      omega

theorem cc_after_row (rows : List (List Int)) :
    ∀ (f : Nat) (acc : List (List Int)), acc ≠ [] → 2 * rows.length + 2 ≤ f →
      CC.parseLoopF (f + 1) (serRowsTail rows) acc = some (acc ++ rows) := by
  induction rows with
  | nil =>
    intro f acc hacc hf
    rw [show serRowsTail ([] : List (List Int)) = [']'] from rfl]
    rw [ccLoopF_cons, if_neg (by decide)]
    obtain ⟨f2, rfl⟩ : ∃ f2, f = f2 + 1 := ⟨f - 1, by omega⟩
    rw [ccLoopF_nil]
    cases acc with
    | nil => exact absurd rfl hacc
    | cons a as => simp
  | cons r tl ih =>
    intro f acc hacc hf
    rw [show serRowsTail (r :: tl) = ',' :: (serRowsBody (r :: tl) ++ [']']) from rfl]
    rw [ccLoopF_cons, if_neg (by decide)]
    obtain ⟨f2, rfl⟩ : ∃ f2, f = f2 + 1 := ⟨f - 1, by omega⟩
    rw [serRowsBody_shape r tl]
    rw [ccLoopF_cons, if_pos rfl]
    have hcount : CC.countTokensF ((serRowBody r ++ ']' :: serRowsTail tl).length + 1)
        (serRowBody r ++ ']' :: serRowsTail tl) 0 = some (0 + r.length, serRowsTail tl) :=
      countTokensF_ser r _ 0 _ (by
        simp only [List.length_append, List.length_cons]
        omega)
    simp only [hcount]
    have hvals : CC.parseValsF (0 + r.length) (serRowBody r ++ ']' :: serRowsTail tl) = r := by
      rw [Nat.zero_add]
      have h := parseValsF_ser r [] (']' :: serRowsTail tl)
        (by intro x hx; cases hx) (by intro x hx; cases hx; rfl)
      rw [List.nil_append] at h
      exact h
    rw [hvals]
    obtain ⟨f3, rfl⟩ : ∃ f3, f2 = f3 + 1 := ⟨f2 - 1, by
      simp only [List.length_cons] at hf
      omega⟩
    rw [ih f3 (acc ++ [r]) (by simp) (by simp only [List.length_cons] at hf; omega)]
    simp

theorem cc_parse_serRow (row : List Int) : CC.parse_jagged_array (serRow row) = some [row] := by
  rw [CC.parse_jagged_array, serRow]
  rw [show List.length ('[' :: (serRowBody row ++ [']']))
      = (serRowBody row ++ [']']).length + 1 from by simp]
  rw [ccLoopF_cons, if_pos rfl]
  have hcount : CC.countTokensF ((serRowBody row ++ [']']).length + 1)
      (serRowBody row ++ [']']) 0 = some (0 + row.length, []) := by
    rw [show serRowBody row ++ [']'] = serRowBody row ++ ']' :: [] from rfl]
    exact countTokensF_ser row _ 0 [] (by
      simp only [List.length_append, List.length_cons, List.length_nil]
      omega)
  simp only [hcount]
  have hvals : CC.parseValsF (0 + row.length) (serRowBody row ++ [']']) = row := by
    rw [Nat.zero_add]
    have h := parseValsF_ser row [] (']' :: [])
      (by intro x hx; cases hx) (by intro x hx; cases hx; rfl)
    rw [List.nil_append] at h
    exact h
  rw [hvals]
  rw [show (serRowBody row ++ [']']).length = (serRowBody row).length + 1 from by simp]
  rw [ccLoopF_nil]
  simp

theorem cc_parse_serMulti (rows : List (List Int)) (hne : rows ≠ []) :
    CC.parse_jagged_array (serMulti rows) = some rows := by
  obtain ⟨r, tl, rfl⟩ := List.exists_cons_of_ne_nil hne
  rw [CC.parse_jagged_array, serMulti]
  rw [show List.length ('[' :: (serRowsBody (r :: tl) ++ [']']))
      = (serRowsBody (r :: tl) ++ [']']).length + 1 from by simp]
  rw [ccLoopF_cons, if_pos rfl]
  have hcount : CC.countTokensF ((serRowsBody (r :: tl) ++ [']']).length + 1)
      (serRowsBody (r :: tl) ++ [']']) 0 = some (0 + r.length, serRowsTail tl) := by
    rw [serRowsBody_shape r tl]
    rw [show List.length ('[' :: (serRowBody r ++ ']' :: serRowsTail tl))
        = (serRowBody r ++ ']' :: serRowsTail tl).length + 1 from by simp]
    rw [countTokensF_junk _ '[' _ 0 (by decide) (by decide)]
    exact countTokensF_ser r _ 0 _ (by
      simp only [List.length_append, List.length_cons]
      omega)
  simp only [hcount]
  have hvals : CC.parseValsF (0 + r.length) (serRowsBody (r :: tl) ++ [']']) = r := by
    rw [Nat.zero_add, serRowsBody_shape r tl]
    have h := parseValsF_ser r ['['] (']' :: serRowsTail tl)
      (by
        intro x hx
        rcases List.mem_singleton.mp hx with rfl
        decide)
      (by intro x hx; cases hx; rfl)
    rw [show ['['] ++ (serRowBody r ++ (']' :: serRowsTail tl))
        = '[' :: (serRowBody r ++ ']' :: serRowsTail tl) from rfl] at h
    exact h
  rw [hvals, List.nil_append]
  have hfuel : 2 * tl.length + 2 ≤ (serRowsBody (r :: tl) ++ [']']).length := by
    have h1 := serRowsBody_length_ge2 (r :: tl)
    have h2 : (serRowsBody (r :: tl) ++ [']']).length = (serRowsBody (r :: tl)).length + 1 := by
      simp
    simp only [List.length_cons] at h1
    omega
  rw [cc_after_row tl _ [r] (by simp) hfuel]
  simp

/-- C9: on every well-formed range-free jagged-array input — the canonical
serializations of a single row (`'[' item (',' item)* ']'`) and of a
nonempty list of rows (`'[' row (',' row)* ']'`) per the spec §6 grammar —
the two checked-in implementations of `parse_jagged_array`
(src/src/ccbench.c and the src/unnamed/part_004 variant) return the same
result: the same rows, hence equal row counts, per-row column counts, and
element values in the same order. -/
theorem jagged_parsers_agree (row : List Int) (rows : List (List Int)) (hne : rows ≠ []) :
    P4.parse_jagged_array (serRow row) = some [row] ∧
    CC.parse_jagged_array (serRow row) = some [row] ∧
    P4.parse_jagged_array (serMulti rows) = some rows ∧
    CC.parse_jagged_array (serMulti rows) = some rows ∧
    P4.parse_jagged_array (serRow row) = CC.parse_jagged_array (serRow row) ∧
    P4.parse_jagged_array (serMulti rows) = CC.parse_jagged_array (serMulti rows) := by
  refine ⟨p4_parse_serRow row, cc_parse_serRow row, p4_parse_serMulti rows hne,
    cc_parse_serMulti rows hne, ?_, ?_⟩
  · rw [p4_parse_serRow row, cc_parse_serRow row]
  · rw [p4_parse_serMulti rows hne, cc_parse_serMulti rows hne]

theorem jagged_parsers_agree_witness :
    P4.parse_jagged_array (serRow [5, -3]) = some [[5, -3]] ∧
    CC.parse_jagged_array (serRow [5, -3]) = some [[5, -3]] ∧
    P4.parse_jagged_array (serMulti [[5], [6, 7]]) = some [[5], [6, 7]] ∧
    CC.parse_jagged_array (serMulti [[5], [6, 7]]) = some [[5], [6, 7]] ∧
    P4.parse_jagged_array (serRow [5, -3]) = CC.parse_jagged_array (serRow [5, -3]) ∧
    P4.parse_jagged_array (serMulti [[5], [6, 7]])
      = CC.parse_jagged_array (serMulti [[5], [6, 7]]) :=
  jagged_parsers_agree [5, -3] [[5], [6, 7]] (by decide)

end CCBench
